import Mathlib

/-
Verification of the stationary wavelet transform core (`pywt/_swt.py` of this
repository): the N-axis forward engine `swtn`, the N-axis inverse engine
`iswtn`, the 1D entry points `swt`/`iswt`, and their validation logic.

Embedding conventions:

* Numeric layer: an n-dimensional circular array of rationals is embedded as a
  function `(Fin d → ℤ) → ℚ` together with an `IsPeriodic shape` predicate; a
  numpy strided slice `x[first::step]` along one axis becomes `sliceAx`, and
  `np.roll(x, 1, axis)` becomes `rollAx`.  Exact rational arithmetic stands in
  for double precision floats, so round-trip identities are proved exactly
  (which implies the spec's floating-point tolerance).
* The single-axis wavelet primitives (`_swt_axis`, `idwt_single`, `idwtn`) are
  compiled C extensions that are not part of `src/`; they are modelled from the
  spec (sections 3, 4.3, 6): the forward step is a periodic convolution with a
  filter dilated by `2^i` (`convF`), and the inverse one-axis step is an
  abstract operation `idwt1` assumed to be the exact inverse of the decimated
  one-axis forward step, which is what section 6 states.
* Validation layer: to reason about the order of validation errors, mutation
  of the caller's per-level dictionaries (the pop/restore of the `'a'*k` key)
  and partial work, arrays are abstracted to their shapes (`List ℕ`) and
  `iswtn`'s control flow is modelled step by step (`iswtnModel`), recording
  the error raised, the number of levels whose reconstruction work completed,
  and the final state of the coefficient dictionaries.

Sub-band keys (strings over {a, d}) are embedded as `List Bool` with
`false = 'a'` and `true = 'd'`.
-/

namespace SwtVerify

/-! ### Signals -/

/-- A multi-index into a `d`-dimensional array (unbounded; arrays are
represented by periodic functions). -/
abbrev Idx (d : ℕ) := Fin d → ℤ

/-- A `d`-dimensional signal with rational entries. -/
abbrev Sig (d : ℕ) := Idx d → ℚ

/-- The embedding of an array of shape `shape`: a function that is periodic
with period `shape ax` along every axis `ax`. -/
def IsPeriodic {d : ℕ} (shape : Fin d → ℕ) (x : Sig d) : Prop :=
  ∀ t ax, x (Function.update t ax (t ax + shape ax)) = x t

/-- Periodic convolution of `x` with the filter `fil` dilated by step `s`
along axis `ax` (the à-trous scheme of spec section 3: the filter is not
resampled, the data is strided by `s`). -/
def convF {d : ℕ} (fil : List ℚ) (s : ℤ) (ax : Fin d) (x : Sig d) : Sig d :=
  fun t => ∑ k ∈ Finset.range fil.length,
    fil.getD k 0 * x (Function.update t ax (t ax + s * k))

/-- The strided slice `x[off::st]` along axis `ax` (numpy basic slicing on a
circular array), in sliced coordinates. -/
def sliceAx {d : ℕ} (ax : Fin d) (off st : ℤ) (x : Sig d) : Sig d :=
  fun u => x (Function.update u ax (off + st * u ax))

/-- `np.roll(x, 1, axis=ax)`: circular shift right by one along `ax`. -/
def rollAx {d : ℕ} (ax : Fin d) (x : Sig d) : Sig d :=
  fun u => x (Function.update u ax (u ax - 1))

/-- Proof-layer normal form: reindex a signal along one axis by an arbitrary
function of that coordinate.  `sliceAx`, `rollAx` and the shifts inside
`convF` are all instances, which lets their commutation laws be proved
once. -/
def mapAx {d : ℕ} (ax : Fin d) (e : ℤ → ℤ) (x : Sig d) : Sig d :=
  fun u => x (Function.update u ax (e (u ax)))

/-- Simultaneous strided slice along every axis in `axes` (offset `offs ax`,
common step `st`): the `value[tuple(odd_even_slices)]` expressions of
`iswtn`. -/
def sliceN {d : ℕ} : List (Fin d) → (Fin d → ℤ) → ℤ → Sig d → Sig d
  | [], _, _, x => x
  | ax :: rest, offs, st, x => sliceAx ax (offs ax) st (sliceN rest offs st x)

/-- Roll by one along every axis whose phase choice in `o` is odd
(`iswtn` lines 525-528). -/
def rollOdds {d : ℕ} : List (Fin d) → (Fin d → Bool) → Sig d → Sig d
  | [], _, x => x
  | ax :: rest, o, x => if o ax then rollAx ax (rollOdds rest o x) else rollOdds rest o x

/-! ### The forward engine `swtn` (numeric layer, `_swt.py` lines 404-423) -/

/-- Modelled from the spec: the `_swt_axis` C extension at `level=1`,
`start_level=i` — one dilated wavelet step along one axis producing the
(approximation, detail) pair, with filter dilation `2^i` (spec sections 3,
4.3 step 2 and 6). `lo`/`hi` are the wavelet's decomposition filter pair. -/
def swtAxisStep {d : ℕ} (lo hi : List ℚ) (i : ℕ) (ax : Fin d) (x : Sig d) :
    Sig d × Sig d :=
  (convF lo ((2 : ℤ) ^ i) ax x, convF hi ((2 : ℤ) ^ i) ax x)

/-- One step of the per-axis breadth-first expansion of the working
coefficient list (`_swt.py` lines 408-414): every entry `(key, x)` is replaced
by `(key + 'a', cA)` and `(key + 'd', cD)`. -/
def expandStep {d : ℕ} (lo hi : List ℚ) (i : ℕ) (ax : Fin d)
    (coeffs : List (List Bool × Sig d)) : List (List Bool × Sig d) :=
  coeffs.flatMap fun p =>
    [(p.1 ++ [false], (swtAxisStep lo hi i ax p.2).1),
     (p.1 ++ [true], (swtAxisStep lo hi i ax p.2).2)]

/-- One level of `swtn` (`_swt.py` lines 406-416): start from `{'': data}` and
expand along every axis in order. -/
def swtnLevel {d : ℕ} (lo hi : List ℚ) (i : ℕ) (axes : List (Fin d))
    (x : Sig d) : List (List Bool × Sig d) :=
  axes.foldl (fun coeffs ax => expandStep lo hi i ax coeffs) [([], x)]

/-- The all-approximation key `'a' * k`. -/
def allA (k : ℕ) : List Bool := List.replicate k false

/-- Dictionary access `dict[key]` on a level coefficient set (the key is
always present where the code uses it). -/
def lookupD {d : ℕ} (dict : List (List Bool × Sig d)) (K : List Bool) : Sig d :=
  (dict.lookup K).getD fun _ => 0

/-- The level loop of `swtn` (`_swt.py` lines 404-421): levels are produced in
increasing order `i = start, …, start+level-1`, and the data for the next
level is the all-approximation entry of the current level. -/
def swtnGo {d : ℕ} (lo hi : List ℚ) (axes : List (Fin d)) :
    ℕ → ℕ → Sig d → List (List (List Bool × Sig d))
  | 0, _, _ => []
  | lv + 1, i, x =>
    let coeffs := swtnLevel lo hi i axes x
    coeffs :: swtnGo lo hi axes lv (i + 1) (lookupD coeffs (allA axes.length))

/-- `swtn` (numeric success path): the ascending level list is reversed before
returning (`_swt.py` line 422). -/
def swtnN {d : ℕ} (lo hi : List ℚ) (axes : List (Fin d)) (level start : ℕ)
    (x : Sig d) : List (List (List Bool × Sig d)) :=
  (swtnGo lo hi axes level start x).reverse

/-! ### Closed forms used to state properties of `swtn` -/

/-- Apply, for each position of the key `K`, the `lo` (for 'a') or `hi` (for
'd') dilated convolution along the corresponding axis: the value of the
sub-band keyed `K` in one level of `swtn`. -/
def applyKey {d : ℕ} (lo hi : List ℚ) (s : ℤ) :
    List Bool → List (Fin d) → Sig d → Sig d
  | [], _, x => x
  | _ :: _, [], x => x
  | b :: K, ax :: rest, x =>
    applyKey lo hi s K rest (convF (if b then hi else lo) s ax x)

/-- The approximation part of one full level at absolute level `i`: the data
passed to the next level by `swtn`. -/
def Astep {d : ℕ} (lo hi : List ℚ) (i : ℕ) (axes : List (Fin d)) (x : Sig d) :
    Sig d :=
  applyKey lo hi ((2 : ℤ) ^ i) (allA axes.length) axes x

/-- The data `swtn` holds after `m` levels when the first level is computed at
absolute level `i`. -/
def dataFrom {d : ℕ} (lo hi : List ℚ) (axes : List (Fin d)) :
    ℕ → ℕ → Sig d → Sig d
  | _, 0, x => x
  | i, m + 1, x => dataFrom lo hi axes (i + 1) m (Astep lo hi i axes x)

/-- All sub-band keys of length `n`, in the order `swtn` produces them. -/
def keyList : ℕ → List (List Bool)
  | 0 => [[]]
  | n + 1 => (keyList n).map (List.cons false) ++ (keyList n).map (List.cons true)

/-! ### The inverse engine `iswtn` (numeric layer, `_swt.py` lines 426-533) -/

/-- `ndim_transform = max(len(key) for key in coeffs[0].keys())`
(`_swt.py` line 461). -/
def maxKeyLen {d : ℕ} (dict : List (List Bool × Sig d)) : ℕ :=
  (dict.map fun p => p.1.length).foldr max 0

/-- `itertools.product(*([range(step)] * k))` realized as offset assignments
to the axes in `axes` (axes not transformed keep offset 0, mirroring their
`slice(None)` entries). -/
def offsetCombos {d : ℕ} : List (Fin d) → ℕ → List (Fin d → ℤ)
  | [], _ => [fun _ => 0]
  | ax :: rest, step =>
    ((List.range step).map Int.ofNat).flatMap fun v =>
      (offsetCombos rest step).map fun f => Function.update f ax v

/-- `itertools.product(*([(0, 1)] * k))`: the even/odd phase choice per
transformed axis. -/
def phaseCombos {d : ℕ} : List (Fin d) → List (Fin d → Bool)
  | [] => [fun _ => false]
  | ax :: rest =>
    [false, true].flatMap fun b =>
      (phaseCombos rest).map fun o => Function.update o ax b

/-- Modelled from the spec: the external inverse primitive `idwtn` applied
axis by axis (spec section 4.4 step 5: "invoke the inverse of the one-axis
primitive, jointly across all k axes (or iteratively axis-by-axis)"); `idwt1`
is the abstract one-axis inverse step. -/
def idwtnM {d : ℕ} (idwt1 : Fin d → Sig d → Sig d → Sig d) :
    List (Fin d) → (List Bool → Sig d) → Sig d
  | [], cs => cs []
  | ax :: rest, cs =>
    idwt1 ax (idwtnM idwt1 rest fun K => cs (false :: K))
             (idwtnM idwt1 rest fun K => cs (true :: K))

/-- Does `t` lie in the strided region `indices` selected by the offset
combination `f` with step `step`? -/
def inRegion {d : ℕ} (axes : List (Fin d)) (f : Fin d → ℤ) (step : ℤ)
    (t : Idx d) : Bool :=
  axes.all fun ax => (t ax - f ax) % step == 0

/-- The coordinates of `t` inside the strided region of offset combination
`f` (inverse of `t = f + step * u` on the transformed axes). -/
def toSliced {d : ℕ} (axes : List (Fin d)) (f : Fin d → ℤ) (step : ℤ)
    (t : Idx d) : Idx d :=
  fun a => if a ∈ axes then (t a - f a) / step else t a

/-- Offsets of the even/odd sub-strides: `first` for the even phase,
`first + step` for the odd phase (`_swt.py` lines 502-503, 509-514). -/
def phaseOff {d : ℕ} (f : Fin d → ℤ) (step : ℤ) (o : Fin d → Bool) :
    Fin d → ℤ :=
  fun a => f a + if o a then step else 0

/-- The body of `iswtn`'s loop over one offset combination `firsts = f`
(`_swt.py` lines 499-531): slice every detail sub-band and the running
approximation (`approx = output.copy()`) at each of the `2^k` even/odd phase
combinations, reconstruct with the inverse primitive, roll the odd-phase axes
right by one, accumulate, and write the average back into the strided
region. The zero-initialise / accumulate / divide sequence of the source is
the finite sum divided by `ntransforms = 2^k`. -/
def regionUpdate {d : ℕ} (idwt1 : Fin d → Sig d → Sig d → Sig d)
    (axes : List (Fin d)) (k : ℕ) (dict : List (List Bool × Sig d))
    (step : ℤ) (f : Fin d → ℤ) (out : Sig d) : Sig d :=
  let contrib : (Fin d → Bool) → Sig d := fun o =>
    rollOdds axes o (idwtnM idwt1 axes fun K =>
      sliceN axes (phaseOff f step o) (2 * step)
        (if K = allA k then out else lookupD dict K))
  fun t =>
    if inRegion axes f step t then
      ((phaseCombos axes).map fun o => contrib o (toSliced axes f step t)).sum /
        ((phaseCombos axes).length : ℚ)
    else out t

/-- One level of `iswtn` (`_swt.py` lines 486-531): iterate the region update
over every offset combination. -/
def levelStep {d : ℕ} (idwt1 : Fin d → Sig d → Sig d → Sig d)
    (axes : List (Fin d)) (k : ℕ) (dict : List (List Bool × Sig d))
    (step : ℕ) (out : Sig d) : Sig d :=
  (offsetCombos axes step).foldl
    (fun o f => regionUpdate idwt1 axes k dict (step : ℤ) f o) out

/-- The level loop of `iswtn`: level `j` of `n` uses
`step_size = 2^(n-1-j)`, i.e. `2^(remaining levels)` when peeling the list
from the front. -/
def iswtnGo {d : ℕ} (idwt1 : Fin d → Sig d → Sig d → Sig d)
    (axes : List (Fin d)) (k : ℕ) :
    List (List (List Bool × Sig d)) → Sig d → Sig d
  | [], out => out
  | dict :: rest, out =>
    iswtnGo idwt1 axes k rest (levelStep idwt1 axes k dict (2 ^ rest.length) out)

/-- `iswtn` (numeric success path): `ndim_transform` from the first level's
keys, initial output from its all-approximation entry, then the level loop. -/
def iswtnN {d : ℕ} (idwt1 : Fin d → Sig d → Sig d → Sig d)
    (axes : List (Fin d)) (coeffs : List (List (List Bool × Sig d))) : Sig d :=
  iswtnGo idwt1 axes (maxKeyLen (coeffs.headD []))
    coeffs (lookupD (coeffs.headD []) (allA (maxKeyLen (coeffs.headD []))))

/-! ### A concrete exact wavelet (Haar-like filter bank over ℚ), used as the
witness instance of the abstract primitives -/

/-- Unnormalised Haar decomposition low-pass filter. -/
def haarLo : List ℚ := [1/2, 1/2]

/-- Unnormalised Haar decomposition high-pass filter. -/
def haarHi : List ℚ := [1/2, -1/2]

/-- The exact one-axis inverse step for the Haar-like filter bank: a concrete
realisation of the abstract `idwt1` primitive. -/
def haarIdwt {d : ℕ} (ax : Fin d) (A D : Sig d) : Sig d :=
  fun t =>
    if 2 ∣ t ax then
      A (Function.update t ax (t ax / 2)) + D (Function.update t ax (t ax / 2))
    else
      A (Function.update t ax ((t ax - 1) / 2)) -
        D (Function.update t ax ((t ax - 1) / 2))

/-! ### The 1D inverse `iswt` (`_swt.py` lines 89-160) -/

/-- A 1D circular signal. -/
abbrev Sig1 := ℤ → ℚ

/-- The 1D strided slice `x[off::st]` in sliced coordinates. -/
def sl1 (off st : ℤ) (x : Sig1) : Sig1 := fun u => x (off + st * u)

/-- `np.roll(x, 1)`. -/
def roll1 (x : Sig1) : Sig1 := fun u => x (u - 1)

/-- The body of `iswt`'s loop over one offset `first` (`_swt.py` lines
133-158): inverse-transform the even-indexed and odd-indexed sub-strides of
the selected indices, roll the odd result right by one, and write the average
back at the selected indices. `idwt` is the external `idwt_single`
primitive. -/
def iswtOffsetStep (idwt : Sig1 → Sig1 → Sig1) (cD : Sig1) (step first : ℤ)
    (out : Sig1) : Sig1 :=
  let subO := sl1 first step out
  let subD := sl1 first step cD
  let x1 := idwt (sl1 0 2 subO) (sl1 0 2 subD)
  let x2 := roll1 (idwt (sl1 1 2 subO) (sl1 1 2 subD))
  fun t =>
    if (t - first) % step == 0 then
      (x1 ((t - first) / step) + x2 ((t - first) / step)) / 2
    else out t

/-- One level of `iswt`: iterate over `first in range(step_size)`. -/
def iswtLevel (idwt : Sig1 → Sig1 → Sig1) (cD : Sig1) (step : ℕ)
    (out : Sig1) : Sig1 :=
  ((List.range step).map Int.ofNat).foldl
    (fun o first => iswtOffsetStep idwt cD (step : ℤ) first o) out

/-- The level loop of `iswt` (`_swt.py` lines 127-158): level `j` (counting
down) uses `step_size = 2^(j-1)` and reads only the detail member
(`_, cD = coeffs[num_levels - j]`) of each pair. -/
def iswtGo (idwt : Sig1 → Sig1 → Sig1) : List (Sig1 × Sig1) → Sig1 → Sig1
  | [], out => out
  | p :: rest, out => iswtGo idwt rest (iswtLevel idwt p.2 (2 ^ rest.length) out)

/-- `iswt` (real path, `_swt.py` lines 116-160): the output buffer starts as a
copy of `coeffs[0][0]` and is refined level by level. -/
def iswtM (idwt : Sig1 → Sig1 → Sig1) (coeffs : List (Sig1 × Sig1)) : Sig1 :=
  iswtGo idwt coeffs (coeffs.headD (fun _ => 0, fun _ => 0)).1

/-! ### The 1D forward `swt` and its complex-input path
(`_swt.py` lines 17-86) -/

/-- Negative-axis normalisation `axis = axis + data.ndim` (`_swt.py`
line 74-75). -/
def normAxis (nd : ℕ) (a : ℤ) : ℤ := if a < 0 then a + nd else a

/-- Axis range check `0 <= axis < data.ndim` (`_swt.py` line 76): `none`
models the `ValueError` raised for an out-of-range axis. -/
def axFin (d : ℕ) (a : ℤ) : Option (Fin d) :=
  if h : 0 ≤ normAxis d a ∧ (normAxis d a).toNat < d then
    some ⟨(normAxis d a).toNat, h.2⟩
  else none

/-- Modelled from the spec: the `_swt` / `_swt_axis` C extension — the
multilevel single-axis SWT, levels produced in increasing order. -/
def swtPairsAsc {d : ℕ} (lo hi : List ℚ) (ax : Fin d) :
    ℕ → ℕ → Sig d → List (Sig d × Sig d)
  | 0, _, _ => []
  | lv + 1, i, x =>
    (convF lo ((2 : ℤ) ^ i) ax x, convF hi ((2 : ℤ) ^ i) ax x) ::
      swtPairsAsc lo hi ax lv (i + 1) (convF lo ((2 : ℤ) ^ i) ax x)

/-- Modelled from the spec: the list of `(cA_i, cD_i)` pairs returned by the
`_swt`/`_swt_axis` primitive, coarsest level first (`swt` docstring). -/
def swtPairs {d : ℕ} (lo hi : List ℚ) (ax : Fin d) (level start : ℕ)
    (x : Sig d) : List (Sig d × Sig d) :=
  (swtPairsAsc lo hi ax level start x).reverse

/-- The real path of `swt` (`_swt.py` lines 68-86): normalise and check the
axis, then run the single-axis multilevel transform. -/
def swtReal {d : ℕ} (lo hi : List ℚ) (level start : ℕ) (a : ℤ) (x : Sig d) :
    Option (List (Sig d × Sig d)) :=
  (axFin d a).map fun ax => swtPairs lo hi ax level start x

/-- The complex-input path of `swt` (`_swt.py` lines 59-66), taken when the
build lacks C99 complex support: the real and imaginary parts are transformed
separately and recombined pairwise.  The recursive calls
`swt(data.real, wavelet, level, start_level)` pass no axis argument, so the
parameter `a` is unused and the default axis `-1` is used instead. -/
def swtComplexPath {d : ℕ} (lo hi : List ℚ) (level start : ℕ) (a : ℤ)
    (re im : Sig d) : Option (List ((Sig d × Sig d) × (Sig d × Sig d))) :=
  match swtReal lo hi level start (-1) re, swtReal lo hi level start (-1) im with
  | some cr, some ci => some (cr.zip ci)
  | _, _ => none

/-- The behaviour the claim (and the docstring) specify for complex input:
the same combination computed with the caller's axis `a`. -/
def swtComplexSpec {d : ℕ} (lo hi : List ℚ) (level start : ℕ) (a : ℤ)
    (re im : Sig d) : Option (List ((Sig d × Sig d) × (Sig d × Sig d))) :=
  match swtReal lo hi level start a re, swtReal lo hi level start a im with
  | some cr, some ci => some (cr.zip ci)
  | _, _ => none

/-- Concrete real part of a complex 2D input: varies along axis 0 only. -/
def cxRe : Sig 2 := fun t => if t 0 % 2 == 0 then 1 else 0

/-- Concrete imaginary part: zero. -/
def cxIm : Sig 2 := fun _ => 0

/-! ### Validation and state layer (`_swt.py` lines 390-400 and 459-533,
arrays abstracted to their shapes) -/

/-- The error taxonomy of the module's validation code, plus the errors the
surrounding code raises on malformed input (`KeyError` from
`coeffs[j].pop`, `IndexError` from `shapes[0]`, numpy's axis-range error). -/
inductive SwtErr
  | objectDtype
  | ndimLt1
  | axesNotUnique
  | axisCount
  | shapeMismatch
  | keyMissing
  | indexErr
  | axisRange
deriving DecidableEq

/-- Negative-axis normalisation applied to a whole axis list
(`_swt.py` line 397 and 468). -/
def normAxes (nd : ℕ) (axes : List ℤ) : List ℤ := axes.map (normAxis nd)

/-- The validation prefix of `swtn` (`_swt.py` lines 390-399): object dtype,
`ndim >= 1`, default axes, negative-axis normalisation, uniqueness.  The
`len(axes) != len(set(axes))` test is the `Nodup` test. -/
def swtnValidate (isObj : Bool) (nd : ℕ) (axesO : Option (List ℤ)) :
    Except SwtErr (List ℤ) :=
  if isObj then .error .objectDtype
  else if nd < 1 then .error .ndimLt1
  else
    let axes := normAxes nd (axesO.getD ((List.range nd).map Int.ofNat))
    if axes.Nodup then .ok axes else .error .axesNotUnique

/-- The per-axis expansion loop of one `swtn` level (`_swt.py` lines
407-414), with the lazy axis-range failure of the external `_swt_axis`: the
range error for an axis is raised only when the loop reaches that axis, after
the transforms along the earlier axes have already been computed.  The second
component counts the single-axis transform steps performed (one per working
entry per in-range axis), making the work done before an error observable. -/
def expandAxesChecked {d : ℕ} (lo hi : List ℚ) (i : ℕ) :
    List ℤ → List (List Bool × Sig d) → ℕ →
      Except SwtErr (List (List Bool × Sig d)) × ℕ
  | [], coeffs, steps => (.ok coeffs, steps)
  | a :: rest, coeffs, steps =>
    if h : 0 ≤ a ∧ a.toNat < d then
      expandAxesChecked lo hi i rest
        (expandStep lo hi i ⟨a.toNat, h.2⟩ coeffs) (steps + coeffs.length)
    else (.error .axisRange, steps)

/-- The level loop of `swtn` (`_swt.py` lines 404-421) over integer axes,
threading the step counter; an axis-range error aborts the loop with the
steps performed so far. -/
def swtnGoChecked {d : ℕ} (lo hi : List ℚ) (axes : List ℤ) :
    ℕ → ℕ → Sig d → ℕ →
      Except SwtErr (List (List (List Bool × Sig d))) × ℕ
  | 0, _, _, steps => (.ok [], steps)
  | lv + 1, i, x, steps =>
    match expandAxesChecked lo hi i axes [([], x)] steps with
    | (.error e, st) => (.error e, st)
    | (.ok coeffs, st) =>
      match swtnGoChecked lo hi axes lv (i + 1)
          (lookupD coeffs (allA axes.length)) st with
      | (.error e, st2) => (.error e, st2)
      | (.ok rest, st2) => (.ok (coeffs :: rest), st2)

/-- `swtn` with its validation prefix (`_swt.py` lines 390-399) composed with
the checked level loop: the result, together with the number of single-axis
transform steps performed before returning. -/
def swtnMFull {d : ℕ} (lo hi : List ℚ) (level start : ℕ) (x : Sig d)
    (isObj : Bool) (axesO : Option (List ℤ)) :
    Except SwtErr (List (List (List Bool × Sig d))) × ℕ :=
  match swtnValidate isObj d axesO with
  | .error e => (.error e, 0)
  | .ok axesZ =>
    match swtnGoChecked lo hi axesZ level start x 0 with
    | (.error e, st) => (.error e, st)
    | (.ok asc, st) => (.ok asc.reverse, st)

/-- The caller-observable result of `swtn`: the first component of
`swtnMFull` (a Python exception discards the partial work). -/
def swtnM {d : ℕ} (lo hi : List ℚ) (level start : ℕ) (x : Sig d)
    (isObj : Bool) (axesO : Option (List ℤ)) :
    Except SwtErr (List (List (List Bool × Sig d))) :=
  (swtnMFull lo hi level start x isObj axesO).1

/-- A level coefficient set with arrays abstracted to their shapes. -/
abbrev ShapeDict := List (List Bool × List ℕ)

/-- The shape test `iswtn` performs on one level (`_swt.py` lines 489-494):
pop the all-approximation key, collect the shapes of the remaining (detail)
entries, and test whether they are all equal (`len(set(shapes)) == 1`). -/
def detailShapesOK (k : ℕ) (dict : ShapeDict) : Bool :=
  (((dict.eraseP fun p => p.1 == allA k).map fun p => p.2).dedup.length == 1)

/-- The outcome of a (modelled) `iswtn` call: the result, how many levels of
reconstruction work completed before returning, and the final state of the
caller's per-level dictionaries. -/
structure IswtnRun where
  result : Except SwtErr Unit
  levelsWorked : ℕ
  finalCoeffs : List ShapeDict

/-- Can every axis in `axes` be used as a Python list index into the
length-`nd` slice lists of `iswtn` (line 501, `indices[ax] = slice(...)`)?
Python list indexing accepts `-nd ≤ ax < nd`; anything else raises
`IndexError`. -/
def axesInRange (nd : ℕ) (axes : List ℤ) : Bool :=
  axes.all fun a => decide (-(nd : ℤ) ≤ a ∧ a < (nd : ℤ))

/-- The level loop of `iswtn` over the shape abstraction (`_swt.py` lines
486-532): per level, pop `'a'*k` (line 489), take `shapes[0]` (IndexError if
there are no detail entries), raise `RuntimeError` on a shape mismatch
(lines 494-496) — leaving the popped key absent — then build the per-axis
slice objects (line 501), which raises `IndexError` for an out-of-range axis,
again with the popped key left absent; otherwise do the level's
reconstruction work and restore the popped entry (line 532). -/
def iswtnLevelsGo (k nd : ℕ) (axes : List ℤ) :
    List ShapeDict → ℕ → Except SwtErr Unit × ℕ × List ShapeDict
  | [], worked => (.ok (), worked, [])
  | dict :: rest, worked =>
    match dict.lookup (allA k) with
    | none => (.error .keyMissing, worked, dict :: rest)
    | some a =>
      let details := dict.eraseP fun p => p.1 == allA k
      let shapes := details.map fun p => p.2
      if shapes.isEmpty then (.error .indexErr, worked, details :: rest)
      else if shapes.dedup.length == 1 then
        if axesInRange nd axes then
          let r := iswtnLevelsGo k nd axes rest (worked + 1)
          (r.1, r.2.1, (details ++ [(allA k, a)]) :: r.2.2)
        else (.error .axisRange, worked, details :: rest)
      else (.error .shapeMismatch, worked, details :: rest)

/-- `iswtn`'s control flow (`_swt.py` lines 459-533) over the shape
abstraction: `ndim_transform` from the first level's key lengths, the output
lookup, axis validation (uniqueness, then count against `ndim_transform`),
then the level loop — in which an out-of-range axis only fails at the slice
construction of line 501, after the level's pop.  Numeric reconstruction is
elided; what is tracked is the error raised, the work done before it, and
the dictionary states. -/
def iswtnModel (coeffs : List ShapeDict) (axesO : Option (List ℤ)) : IswtnRun :=
  let k := ((coeffs.headD []).map fun p => p.1.length).foldr max 0
  match (coeffs.headD []).lookup (allA k) with
  | none => ⟨.error .keyMissing, 0, coeffs⟩
  | some sh =>
    let nd := sh.length
    let axes := normAxes nd (axesO.getD ((List.range nd).map Int.ofNat))
    if ¬ axes.Nodup then ⟨.error .axesNotUnique, 0, coeffs⟩
    else if k ≠ axes.length then ⟨.error .axisCount, 0, coeffs⟩
    else
      let r := iswtnLevelsGo k nd axes coeffs 0
      ⟨r.1, r.2.1, r.2.2⟩

/-- A consistent 2-axis level: every sub-band of shape `[4, 4]`. -/
def goodDict2 : ShapeDict :=
  [([false, false], [4, 4]), ([false, true], [4, 4]),
   ([true, false], [4, 4]), ([true, true], [4, 4])]

/-- A 2-axis level whose `dd` detail has a mismatched shape `[2, 2]`. -/
def badDict2 : ShapeDict :=
  [([false, false], [4, 4]), ([false, true], [4, 4]),
   ([true, false], [4, 4]), ([true, true], [2, 2])]

/-- A 1-axis level whose approximation (`'a'`, shape `[2]`) disagrees with
its detail (`'d'`, shape `[4]`). -/
def mixDict1 : ShapeDict := [([false], [2]), ([true], [4])]

/-! ## Lemmas: index algebra of slices, rolls and dilated convolutions -/

theorem sliceAx_eq_mapAx {d : ℕ} (ax : Fin d) (off st : ℤ) (x : Sig d) :
    sliceAx ax off st x = mapAx ax (fun v => off + st * v) x := rfl

theorem rollAx_eq_mapAx {d : ℕ} (ax : Fin d) (x : Sig d) :
    rollAx ax x = mapAx ax (fun v => v - 1) x := rfl

theorem mapAx_mapAx_same {d : ℕ} (ax : Fin d) (e f : ℤ → ℤ) (x : Sig d) :
    mapAx ax e (mapAx ax f x) = mapAx ax (fun v => f (e v)) x := by
  funext u
  simp [mapAx, Function.update_idem, Function.update_same]

theorem mapAx_mapAx_comm {d : ℕ} {ax ax' : Fin d} (h : ax ≠ ax')
    (e f : ℤ → ℤ) (x : Sig d) :
    mapAx ax e (mapAx ax' f x) = mapAx ax' f (mapAx ax e x) := by
  funext u
  simp only [mapAx, Function.update_noteq h, Function.update_noteq h.symm,
    Function.update_same]
  rw [Function.update_comm h]

theorem mapAx_congr {d : ℕ} (ax : Fin d) {e f : ℤ → ℤ} (h : ∀ v, e v = f v)
    (x : Sig d) : mapAx ax e x = mapAx ax f x := by
  funext u
  simp only [mapAx, h]

theorem mapAx_convF {d : ℕ} {ax ax' : Fin d} (h : ax ≠ ax') (e : ℤ → ℤ)
    (fil : List ℚ) (s : ℤ) (x : Sig d) :
    mapAx ax e (convF fil s ax' x) = convF fil s ax' (mapAx ax e x) := by
  funext u
  simp only [mapAx, convF, Function.update_noteq h, Function.update_noteq h.symm,
    Function.update_same]
  refine Finset.sum_congr rfl fun k _ => ?_
  rw [Function.update_comm h]

theorem sliceAx_convF_dil {d : ℕ} (ax : Fin d) (c s : ℤ) (fil : List ℚ)
    (x : Sig d) :
    sliceAx ax c (2 * s) (convF fil s ax x) =
      sliceAx ax 0 2 (convF fil 1 ax (sliceAx ax c s x)) := by
  funext u
  simp only [sliceAx, convF, Function.update_idem, Function.update_same]
  refine Finset.sum_congr rfl fun k _ => ?_
  congr 2
  ring

theorem rollAx_sliceAx_odd {d : ℕ} (ax : Fin d) (c st : ℤ) (x : Sig d) :
    rollAx ax (sliceAx ax (c + st) st x) = sliceAx ax c st x := by
  rw [rollAx_eq_mapAx, sliceAx_eq_mapAx, sliceAx_eq_mapAx, mapAx_mapAx_same]
  refine mapAx_congr ax (fun v => ?_) x
  ring

theorem mapAx_sliceN {d : ℕ} {ax : Fin d} {axes : List (Fin d)}
    (h : ax ∉ axes) (e : ℤ → ℤ) (offs : Fin d → ℤ) (st : ℤ) (x : Sig d) :
    mapAx ax e (sliceN axes offs st x) = sliceN axes offs st (mapAx ax e x) := by
  induction axes generalizing x with
  | nil => rfl
  | cons ax' rest ih =>
    have hne : ax ≠ ax' := fun hcontra => h (hcontra ▸ List.mem_cons_self ax' rest)
    have hrest : ax ∉ rest := fun hm => h (List.mem_cons_of_mem ax' hm)
    simp only [sliceN, sliceAx_eq_mapAx]
    rw [mapAx_mapAx_comm hne, ih hrest]

theorem mapAx_applyKey {d : ℕ} {ax : Fin d} {axes : List (Fin d)}
    (h : ax ∉ axes) (e : ℤ → ℤ) (lo hi : List ℚ) (s : ℤ) (K : List Bool)
    (x : Sig d) :
    mapAx ax e (applyKey lo hi s K axes x) =
      applyKey lo hi s K axes (mapAx ax e x) := by
  induction K generalizing axes x with
  | nil => rfl
  | cons b K ih =>
    cases axes with
    | nil => rfl
    | cons ax' rest =>
      have hne : ax ≠ ax' := fun hcontra => h (hcontra ▸ List.mem_cons_self ax' rest)
      have hrest : ax ∉ rest := fun hm => h (List.mem_cons_of_mem ax' hm)
      simp only [applyKey]
      rw [ih hrest, mapAx_convF hne]

theorem mapAx_rollOdds {d : ℕ} {ax : Fin d} {axes : List (Fin d)}
    (h : ax ∉ axes) (e : ℤ → ℤ) (o : Fin d → Bool) (x : Sig d) :
    mapAx ax e (rollOdds axes o x) = rollOdds axes o (mapAx ax e x) := by
  induction axes generalizing x with
  | nil => rfl
  | cons ax' rest ih =>
    have hne : ax ≠ ax' := fun hcontra => h (hcontra ▸ List.mem_cons_self ax' rest)
    have hrest : ax ∉ rest := fun hm => h (List.mem_cons_of_mem ax' hm)
    simp only [rollOdds]
    cases ho : o ax'
    · simp only [Bool.false_eq_true, if_false]
      exact ih hrest x
    · simp only [if_true]
      rw [rollAx_eq_mapAx, mapAx_mapAx_comm hne, ih hrest, ← rollAx_eq_mapAx]

theorem sliceN_apply {d : ℕ} {axes : List (Fin d)} (hnd : axes.Nodup)
    (offs : Fin d → ℤ) (st : ℤ) (x : Sig d) (u : Idx d) :
    sliceN axes offs st x u =
      x (fun a => if a ∈ axes then offs a + st * u a else u a) := by
  induction axes generalizing u with
  | nil => simp [sliceN]
  | cons ax rest ih =>
    obtain ⟨hax, hrest⟩ := List.nodup_cons.mp hnd
    simp only [sliceN, sliceAx]
    rw [ih hrest]
    congr 1
    funext a
    by_cases hmem : a ∈ rest
    · have hne : a ≠ ax := fun hcontra => hax (hcontra ▸ hmem)
      simp [hmem, hne, Function.update_noteq hne, List.mem_cons]
    · by_cases heq : a = ax
      · subst heq
        simp [hmem, Function.update_same, List.mem_cons]
      · simp [hmem, heq, Function.update_noteq heq, List.mem_cons]

/-! ## Lemmas: the level structure of `swtn` -/

theorem keyList_length (n : ℕ) : (keyList n).length = 2 ^ n := by
  induction n with
  | zero => rfl
  | succ n ih => simp [keyList, ih, pow_succ]; ring

theorem mem_keyList {n : ℕ} {K : List Bool} : K ∈ keyList n ↔ K.length = n := by
  induction n generalizing K with
  | zero => simp [keyList, List.length_eq_zero]
  | succ n ih =>
    simp only [keyList, List.mem_append, List.mem_map]
    constructor
    · rintro (⟨K', hK', rfl⟩ | ⟨K', hK', rfl⟩) <;> simp [ih.mp hK']
    · intro hlen
      cases K with
      | nil => simp at hlen
      | cons b K' =>
        have : K'.length = n := by simpa using hlen
        cases b
        · exact Or.inl ⟨K', ih.mpr this, rfl⟩
        · exact Or.inr ⟨K', ih.mpr this, rfl⟩

theorem keyList_nodup (n : ℕ) : (keyList n).Nodup := by
  induction n with
  | zero => simp [keyList]
  | succ n ih =>
    simp only [keyList, List.nodup_append]
    refine ⟨ih.map List.cons_injective, ih.map List.cons_injective, ?_⟩
    rw [List.disjoint_left]
    rintro K hK hK'
    obtain ⟨K₁, -, rfl⟩ := List.mem_map.mp hK
    obtain ⟨K₂, -, h⟩ := List.mem_map.mp hK'
    simp at h

theorem expand_foldl {d : ℕ} (lo hi : List ℚ) (i : ℕ) (axes : List (Fin d))
    (st : List (List Bool × Sig d)) :
    axes.foldl (fun coeffs ax => expandStep lo hi i ax coeffs) st =
      st.flatMap fun p => (keyList axes.length).map fun K =>
        (p.1 ++ K, applyKey lo hi ((2 : ℤ) ^ i) K axes p.2) := by
  induction axes generalizing st with
  | nil =>
    simp only [List.foldl_nil, List.length_nil, keyList, List.map_cons,
      List.map_nil, List.append_nil, applyKey, Prod.mk.eta]
    rw [List.flatMap_singleton']
  | cons ax rest ih =>
    rw [List.foldl_cons, ih, expandStep, List.flatMap_assoc]
    congr 1
    funext p
    simp only [List.flatMap_cons, List.flatMap_nil, List.append_nil,
      List.length_cons, keyList, List.map_append, List.map_map]
    congr 1
    · apply List.map_congr_left
      intro K _
      simp [applyKey, swtAxisStep, List.append_assoc, Function.comp]
    · apply List.map_congr_left
      intro K _
      simp [applyKey, swtAxisStep, List.append_assoc, Function.comp]

theorem swtnLevel_eq {d : ℕ} (lo hi : List ℚ) (i : ℕ) (axes : List (Fin d))
    (x : Sig d) :
    swtnLevel lo hi i axes x =
      (keyList axes.length).map fun K =>
        (K, applyKey lo hi ((2 : ℤ) ^ i) K axes x) := by
  unfold swtnLevel
  rw [expand_foldl]
  simp [List.flatMap_singleton]

theorem lookup_keyed_map {α β : Type _} [BEq α] [LawfulBEq α] (f : α → β)
    (l : List α) (K : α) (h : K ∈ l) :
    (l.map fun a => (a, f a)).lookup K = some (f K) := by
  induction l with
  | nil => cases h
  | cons a rest ih =>
    simp only [List.map_cons, List.lookup_cons]
    by_cases heq : K = a
    · subst heq
      simp
    · have : (K == a) = false := beq_false_of_ne heq
      rw [this]
      exact ih ((List.mem_cons.mp h).resolve_left heq)

theorem swtnLevel_lookup {d : ℕ} (lo hi : List ℚ) (i : ℕ)
    (axes : List (Fin d)) (x : Sig d) {K : List Bool}
    (hK : K.length = axes.length) :
    (swtnLevel lo hi i axes x).lookup K =
      some (applyKey lo hi ((2 : ℤ) ^ i) K axes x) := by
  rw [swtnLevel_eq]
  exact lookup_keyed_map _ _ _ (mem_keyList.mpr hK)

theorem lookupD_swtnLevel {d : ℕ} (lo hi : List ℚ) (i : ℕ)
    (axes : List (Fin d)) (x : Sig d) {K : List Bool}
    (hK : K.length = axes.length) :
    lookupD (swtnLevel lo hi i axes x) K =
      applyKey lo hi ((2 : ℤ) ^ i) K axes x := by
  rw [lookupD, swtnLevel_lookup lo hi i axes x hK, Option.getD_some]

theorem lookupD_swtnLevel_allA {d : ℕ} (lo hi : List ℚ) (i : ℕ)
    (axes : List (Fin d)) (x : Sig d) :
    lookupD (swtnLevel lo hi i axes x) (allA axes.length) =
      Astep lo hi i axes x := by
  rw [Astep]
  exact lookupD_swtnLevel lo hi i axes x (List.length_replicate _ _)

theorem swtnGo_length {d : ℕ} (lo hi : List ℚ) (axes : List (Fin d))
    (lv i : ℕ) (x : Sig d) : (swtnGo lo hi axes lv i x).length = lv := by
  induction lv generalizing i x with
  | zero => rfl
  | succ lv ih => simp [swtnGo, ih]

theorem swtnGo_succ {d : ℕ} (lo hi : List ℚ) (axes : List (Fin d))
    (lv i : ℕ) (x : Sig d) :
    swtnGo lo hi axes (lv + 1) i x =
      swtnLevel lo hi i axes x ::
        swtnGo lo hi axes lv (i + 1) (Astep lo hi i axes x) := by
  simp only [swtnGo]
  rw [lookupD_swtnLevel_allA]

theorem dataFrom_succ {d : ℕ} (lo hi : List ℚ) (axes : List (Fin d))
    (i m : ℕ) (x : Sig d) :
    dataFrom lo hi axes i (m + 1) x =
      Astep lo hi (i + m) axes (dataFrom lo hi axes i m x) := by
  induction m generalizing i x with
  | zero => simp [dataFrom]
  | succ m ih =>
    have : dataFrom lo hi axes i (m + 1 + 1) x =
        dataFrom lo hi axes (i + 1) (m + 1) (Astep lo hi i axes x) := rfl
    rw [this, ih]
    have harith : i + 1 + m = i + (m + 1) := by ring
    rw [harith]
    rfl

theorem swtnGo_append {d : ℕ} (lo hi : List ℚ) (axes : List (Fin d))
    (m i : ℕ) (x : Sig d) :
    swtnGo lo hi axes (m + 1) i x =
      swtnGo lo hi axes m i x ++
        [swtnLevel lo hi (i + m) axes (dataFrom lo hi axes i m x)] := by
  induction m generalizing i x with
  | zero => simp [swtnGo_succ, swtnGo, dataFrom]
  | succ m ih =>
    rw [swtnGo_succ, ih (i + 1) (Astep lo hi i axes x), swtnGo_succ]
    simp only [List.cons_append]
    have harith : i + 1 + m = i + (m + 1) := by ring
    rw [harith]
    rfl

/-! ## Lemmas: the inverse primitive undoes one level, axis by axis -/

theorem sliceN_convF {d : ℕ} {ax : Fin d} {axes : List (Fin d)} (h : ax ∉ axes)
    (offs : Fin d → ℤ) (st : ℤ) (fil : List ℚ) (s : ℤ) (x : Sig d) :
    sliceN axes offs st (convF fil s ax x) =
      convF fil s ax (sliceN axes offs st x) := by
  induction axes generalizing x with
  | nil => rfl
  | cons ax' rest ih =>
    have hne : ax ≠ ax' := fun hcontra => h (hcontra ▸ List.mem_cons_self ax' rest)
    have hrest : ax ∉ rest := fun hm => h (List.mem_cons_of_mem ax' hm)
    simp only [sliceN]
    rw [ih hrest, sliceAx_eq_mapAx, mapAx_convF hne.symm]
    rfl

theorem sliceN_sliceAx {d : ℕ} {ax : Fin d} {axes : List (Fin d)}
    (h : ax ∉ axes) (offs : Fin d → ℤ) (st c st' : ℤ) (x : Sig d) :
    sliceN axes offs st (sliceAx ax c st' x) =
      sliceAx ax c st' (sliceN axes offs st x) := by
  rw [sliceAx_eq_mapAx, sliceAx_eq_mapAx, ← mapAx_sliceN h]

theorem idwtnM_congr {d : ℕ} (idwt1 : Fin d → Sig d → Sig d → Sig d)
    (axes : List (Fin d)) {cs cs' : List Bool → Sig d}
    (h : ∀ K, K.length = axes.length → cs K = cs' K) :
    idwtnM idwt1 axes cs = idwtnM idwt1 axes cs' := by
  induction axes generalizing cs cs' with
  | nil => exact h [] rfl
  | cons ax rest ih =>
    simp only [idwtnM]
    rw [ih fun K hK => h (false :: K) (by simp [hK]),
        ih fun K hK => h (true :: K) (by simp [hK])]

/-- The heart of the round-trip: over any duplicate-free axis set, applying
the abstract one-axis inverse primitive axis by axis to the doubly-strided
phase slices of one level's sub-bands recovers the singly-strided slice of
the level's input, provided the primitive exactly inverts the decimated
one-axis forward step (the collaborator contract of spec section 6). -/
theorem idwtnM_inverts {d : ℕ} (idwt1 : Fin d → Sig d → Sig d → Sig d)
    (lo hi : List ℚ)
    (hrec : ∀ (ax : Fin d) (z : Sig d),
      idwt1 ax (sliceAx ax 0 2 (convF lo 1 ax z))
        (sliceAx ax 0 2 (convF hi 1 ax z)) = z)
    (offs : Fin d → ℤ) (s : ℤ) :
    ∀ (axes : List (Fin d)), axes.Nodup → ∀ Z : Sig d,
      idwtnM idwt1 axes
        (fun K => sliceN axes offs (2 * s) (applyKey lo hi s K axes Z)) =
        sliceN axes offs s Z := by
  intro axes
  induction axes with
  | nil => intro _ Z; rfl
  | cons ax rest ih =>
    intro hnd Z
    obtain ⟨hax, hrest⟩ := List.nodup_cons.mp hnd
    simp only [idwtnM]
    have hb : ∀ b : Bool,
        (fun K => sliceN (ax :: rest) offs (2 * s)
          (applyKey lo hi s (b :: K) (ax :: rest) Z)) =
        (fun K => sliceN rest offs (2 * s) (applyKey lo hi s K rest
          (sliceAx ax 0 2 (convF (if b then hi else lo) 1 ax
            (sliceAx ax (offs ax) s Z))))) := by
      intro b
      funext K
      show sliceAx ax (offs ax) (2 * s)
          (sliceN rest offs (2 * s)
            (applyKey lo hi s K rest (convF (if b then hi else lo) s ax Z))) = _
      rw [sliceAx_eq_mapAx, mapAx_sliceN hax, mapAx_applyKey hax,
        ← sliceAx_eq_mapAx, sliceAx_convF_dil]
    rw [hb false, hb true, ih hrest _, ih hrest _]
    simp only [sliceN_sliceAx hax, sliceN_convF hax, sliceN]
    exact hrec ax (sliceAx ax (offs ax) s (sliceN rest offs s Z))

/-- Rolling the odd-phase axes right by one turns the phase-shifted strided
slice back into the base strided slice (`_swt.py` lines 525-528). -/
theorem rollOdds_phase {d : ℕ} (f : Fin d → ℤ) (s : ℤ) (o : Fin d → Bool)
    (Y : Sig d) :
    ∀ (axes : List (Fin d)), axes.Nodup →
      rollOdds axes o (sliceN axes (phaseOff f s o) s Y) = sliceN axes f s Y := by
  intro axes
  induction axes with
  | nil => intro _; rfl
  | cons ax rest ih =>
    intro hnd
    obtain ⟨hax, hrest⟩ := List.nodup_cons.mp hnd
    simp only [sliceN, rollOdds]
    have hcomm : ∀ st : ℤ, rollOdds rest o
        (sliceAx ax (phaseOff f s o ax) st (sliceN rest (phaseOff f s o) s Y)) =
        sliceAx ax (phaseOff f s o ax) st
          (rollOdds rest o (sliceN rest (phaseOff f s o) s Y)) := by
      intro st
      rw [sliceAx_eq_mapAx, ← mapAx_rollOdds hax]
      rfl
    cases ho : o ax
    · simp only [Bool.false_eq_true, if_false]
      rw [hcomm, ih hrest]
      simp only [phaseOff, ho, Bool.false_eq_true, if_false, add_zero]
    · simp only [if_true]
      rw [hcomm, ih hrest]
      have : phaseOff f s o ax = f ax + s := by simp [phaseOff, ho]
      rw [this, rollAx_sliceAx_odd]

/-! ## Lemmas: offset combinations partition the index space -/

theorem phaseCombos_ne_nil {d : ℕ} (axes : List (Fin d)) :
    phaseCombos axes ≠ [] := by
  cases axes with
  | nil => simp [phaseCombos]
  | cons ax rest =>
    simp only [phaseCombos, List.flatMap_cons, List.flatMap_cons, List.flatMap_nil]
    intro h
    have := congrArg List.length h
    simp [List.length_append] at this
    have h2 := phaseCombos_ne_nil rest
    cases hc : phaseCombos rest with
    | nil => exact h2 hc
    | cons y ys => rw [hc] at this; simp at this

/-- Every offset produced by `offsetCombos` is in range on the transformed
axes and zero elsewhere. -/
theorem offsetCombos_char {d : ℕ} (step : ℕ) :
    ∀ (axes : List (Fin d)), ∀ f ∈ offsetCombos axes step,
      (∀ a, a ∈ axes → 0 ≤ f a ∧ f a < step) ∧ (∀ a, a ∉ axes → f a = 0) := by
  intro axes
  induction axes with
  | nil =>
    intro f hf
    simp only [offsetCombos, List.mem_singleton] at hf
    subst hf
    exact ⟨fun a ha => (nomatch ha), fun a _ => rfl⟩
  | cons ax rest ih =>
    intro f hf
    simp only [offsetCombos, List.mem_flatMap, List.mem_map] at hf
    obtain ⟨v, hv, g, hg, rfl⟩ := hf
    obtain ⟨w, hw, rfl⟩ := hv
    obtain ⟨hrange, hzero⟩ := ih g hg
    constructor
    · intro a ha
      rcases List.mem_cons.mp ha with rfl | ha'
      · simp only [Function.update_same]
        refine ⟨Int.ofNat_nonneg w, ?_⟩
        show (w : ℤ) < (step : ℤ)
        exact_mod_cast List.mem_range.mp hw
      · by_cases heq : a = ax
        · subst heq
          simp only [Function.update_same]
          refine ⟨Int.ofNat_nonneg w, ?_⟩
          show (w : ℤ) < (step : ℤ)
          exact_mod_cast List.mem_range.mp hw
        · rw [Function.update_noteq heq]
          exact hrange a ha'
    · intro a ha
      have hne : a ≠ ax := fun hcontra => ha (hcontra ▸ List.mem_cons_self ax rest)
      have hnr : a ∉ rest := fun hm => ha (List.mem_cons_of_mem ax hm)
      rw [Function.update_noteq hne]
      exact hzero a hnr

/-- The offset combination matching the residues of `t` is listed in
`offsetCombos`. -/
theorem offsetCombos_cover {d : ℕ} (step : ℕ) (hstep : 0 < step) (t : Idx d) :
    ∀ (axes : List (Fin d)), axes.Nodup →
      ∃ f ∈ offsetCombos axes step, ∀ a, (a ∈ axes → f a = t a % (step : ℤ)) ∧
        (a ∉ axes → f a = 0) := by
  intro axes
  induction axes with
  | nil =>
    intro _
    exact ⟨fun _ => 0, List.mem_singleton_self _, fun a => ⟨fun ha => (nomatch ha), fun _ => rfl⟩⟩
  | cons ax rest ih =>
    intro hnd
    obtain ⟨hax, hrest⟩ := List.nodup_cons.mp hnd
    obtain ⟨g, hg, hgspec⟩ := ih hrest
    have hmod : t ax % (step : ℤ) = ((t ax % (step : ℤ)).toNat : ℤ) := by
      have h0 : (0 : ℤ) ≤ t ax % (step : ℤ) :=
        Int.emod_nonneg _ (by exact_mod_cast hstep.ne')
      omega
    have hlt : (t ax % (step : ℤ)).toNat < step := by
      have := Int.emod_lt_of_pos (t ax) (b := (step : ℤ)) (by exact_mod_cast hstep)
      omega
    refine ⟨Function.update g ax (t ax % (step : ℤ)), ?_, ?_⟩
    · simp only [offsetCombos, List.mem_flatMap, List.mem_map]
      refine ⟨((t ax % (step : ℤ)).toNat : ℤ), ?_, g, hg, ?_⟩
      · exact ⟨(t ax % (step : ℤ)).toNat, List.mem_range.mpr hlt, rfl⟩
      · rw [← hmod]
    · intro a
      constructor
      · intro ha
        rcases List.mem_cons.mp ha with rfl | ha'
        · rw [Function.update_same]
        · have hne : a ≠ ax := fun hcontra => hax (hcontra ▸ ha')
          rw [Function.update_noteq hne]
          exact (hgspec a).1 ha'
      · intro ha
        have hne : a ≠ ax := fun hcontra => ha (hcontra ▸ List.mem_cons_self ax rest)
        have hnr : a ∉ rest := fun hm => ha (List.mem_cons_of_mem ax hm)
        rw [Function.update_noteq hne]
        exact (hgspec a).2 hnr

theorem offsetCombos_nodup {d : ℕ} (step : ℕ) :
    ∀ (axes : List (Fin d)), axes.Nodup → (offsetCombos axes step).Nodup := by
  intro axes
  induction axes with
  | nil => intro _; simp [offsetCombos]
  | cons ax rest ih =>
    intro hnd
    obtain ⟨hax, hrest⟩ := List.nodup_cons.mp hnd
    simp only [offsetCombos]
    rw [List.nodup_bind]
    refine ⟨?_, ?_⟩
    · intro v _
      refine (ih hrest).map_on ?_
      intro g hg g' hg' hupd
      have hg0 := (offsetCombos_char step rest g hg).2 ax hax
      have hg0' := (offsetCombos_char step rest g' hg').2 ax hax
      funext a
      by_cases heq : a = ax
      · subst heq; rw [hg0, hg0']
      · have := congrFun hupd a
        rwa [Function.update_noteq heq, Function.update_noteq heq] at this
    · have hnd2 : (((List.range step).map Int.ofNat)).Nodup :=
        (List.nodup_range step).map fun a b h => by
          simpa using congrArg Int.toNat h
      refine List.Pairwise.imp ?_ hnd2
      intro v v' hne
      intro x hx hx'
      obtain ⟨g, hg, rfl⟩ := List.mem_map.mp hx
      obtain ⟨g', hg', heq⟩ := List.mem_map.mp hx'
      have hvv : v' = v := by
        have h1 := congrFun heq ax
        rwa [Function.update_same, Function.update_same] at h1
      exact hne hvv.symm

/-! ## Lemmas: one `iswtn` level undoes one `swtn` level -/

theorem inRegion_dvd {d : ℕ} {axes : List (Fin d)} {f : Fin d → ℤ} {sZ : ℤ}
    {u : Idx d} (h : inRegion axes f sZ u = true) :
    ∀ a ∈ axes, sZ ∣ (u a - f a) := by
  intro a ha
  have hb := List.all_eq_true.mp h a ha
  exact Int.dvd_of_emod_eq_zero (beq_iff_eq.mp hb)

theorem inRegion_of_dvd {d : ℕ} {axes : List (Fin d)} {f : Fin d → ℤ}
    {sZ : ℤ} {u : Idx d} (h : ∀ a ∈ axes, sZ ∣ (u a - f a)) :
    inRegion axes f sZ u = true := by
  refine List.all_eq_true.mpr fun a ha => ?_
  exact beq_iff_eq.mpr (Int.emod_eq_zero_of_dvd (h a ha))

/-- Two in-range offset combinations whose regions share a point are equal. -/
theorem region_unique {d : ℕ} {axes : List (Fin d)} {sZ : ℤ} (hpos : 0 < sZ)
    {f f' : Fin d → ℤ}
    (hf : (∀ a ∈ axes, 0 ≤ f a ∧ f a < sZ) ∧ ∀ a ∉ axes, f a = 0)
    (hf' : (∀ a ∈ axes, 0 ≤ f' a ∧ f' a < sZ) ∧ ∀ a ∉ axes, f' a = 0)
    {u : Idx d} (hu : inRegion axes f sZ u = true)
    (hu' : inRegion axes f' sZ u = true) : f = f' := by
  funext a
  by_cases ha : a ∈ axes
  · have h1 := inRegion_dvd hu a ha
    have h2 := inRegion_dvd hu' a ha
    have hdvd : sZ ∣ (f a - f' a) := by
      have := dvd_sub h2 h1
      have harith : u a - f' a - (u a - f a) = f a - f' a := by ring
      rwa [harith] at this
    have hb1 := hf.1 a ha
    have hb2 := hf'.1 a ha
    have habs : |f a - f' a| < sZ := abs_lt.mpr ⟨by omega, by omega⟩
    have := Int.eq_zero_of_abs_lt_dvd hdvd habs
    omega
  · rw [hf.2 a ha, hf'.2 a ha]

/-- Points outside the strided region of `f` are untouched by its region
update. -/
theorem regionUpdate_outside {d : ℕ} (idwt1 : Fin d → Sig d → Sig d → Sig d)
    (axes : List (Fin d)) (k : ℕ) (dict : List (List Bool × Sig d)) (sZ : ℤ)
    (f : Fin d → ℤ) (out : Sig d) {t : Idx d}
    (ht : inRegion axes f sZ t = false) :
    regionUpdate idwt1 axes k dict sZ f out t = out t := by
  unfold regionUpdate
  simp only [ht, Bool.false_eq_true, if_false]

/-- The phase slices only sample points inside the region of `f`. -/
theorem sample_in_region {d : ℕ} {axes : List (Fin d)} (hnd : axes.Nodup)
    (f : Fin d → ℤ) (sZ : ℤ) (o : Fin d → Bool) (u : Idx d) :
    inRegion axes f sZ
      (fun a => if a ∈ axes then phaseOff f sZ o a + 2 * sZ * u a else u a) =
      true := by
  refine inRegion_of_dvd fun a ha => ?_
  simp only [ha, if_pos, phaseOff]
  refine ⟨(if o a then 1 else 0) + 2 * u a, ?_⟩
  cases o a <;> simp <;> ring

/-- On a point of its region, the update of one offset combination writes the
level's input value back, provided the running output agrees with the level's
approximation on that region.  This is steps 4-6 of spec section 4.4: the
phase slices of the level's sub-bands are the decimated transforms of the
phase-shifted strided input, each phase reconstruction followed by its odd
rolls recovers the base strided slice, and the average of `2^k` identical
contributions is that value. -/
theorem regionUpdate_exact {d : ℕ} (idwt1 : Fin d → Sig d → Sig d → Sig d)
    (lo hi : List ℚ)
    (hrec : ∀ (ax : Fin d) (z : Sig d),
      idwt1 ax (sliceAx ax 0 2 (convF lo 1 ax z))
        (sliceAx ax 0 2 (convF hi 1 ax z)) = z)
    {axes : List (Fin d)} (hnd : axes.Nodup) (i : ℕ) (Y : Sig d)
    (f : Fin d → ℤ) (out : Sig d)
    (hagree : ∀ u, inRegion axes f ((2 : ℤ) ^ i) u = true →
      out u = Astep lo hi i axes Y u)
    (t : Idx d) (ht : inRegion axes f ((2 : ℤ) ^ i) t = true) :
    regionUpdate idwt1 axes axes.length (swtnLevel lo hi i axes Y)
      ((2 : ℤ) ^ i) f out t = Y t := by
  unfold regionUpdate
  rw [if_pos ht]
  have hOut : ∀ o : Fin d → Bool,
      sliceN axes (phaseOff f ((2 : ℤ) ^ i) o) (2 * (2 : ℤ) ^ i) out =
        sliceN axes (phaseOff f ((2 : ℤ) ^ i) o) (2 * (2 : ℤ) ^ i)
          (Astep lo hi i axes Y) := by
    intro o
    funext u
    rw [sliceN_apply hnd, sliceN_apply hnd]
    exact hagree _ (sample_in_region hnd f _ o u)
  have hcontrib : ∀ o : Fin d → Bool,
      rollOdds axes o (idwtnM idwt1 axes fun K =>
        sliceN axes (phaseOff f ((2 : ℤ) ^ i) o) (2 * (2 : ℤ) ^ i)
          (if K = allA axes.length then out
           else lookupD (swtnLevel lo hi i axes Y) K)) =
      sliceN axes f ((2 : ℤ) ^ i) Y := by
    intro o
    have hcs : ∀ K : List Bool, K.length = axes.length →
        sliceN axes (phaseOff f ((2 : ℤ) ^ i) o) (2 * (2 : ℤ) ^ i)
          (if K = allA axes.length then out
           else lookupD (swtnLevel lo hi i axes Y) K) =
        sliceN axes (phaseOff f ((2 : ℤ) ^ i) o) (2 * (2 : ℤ) ^ i)
          (applyKey lo hi ((2 : ℤ) ^ i) K axes Y) := by
      intro K hK
      by_cases hKa : K = allA axes.length
      · rw [if_pos hKa, hOut o, hKa]
        rfl
      · rw [if_neg hKa, lookupD_swtnLevel lo hi i axes Y hK]
    rw [idwtnM_congr idwt1 axes hcs,
      idwtnM_inverts idwt1 lo hi hrec (phaseOff f ((2 : ℤ) ^ i) o)
        ((2 : ℤ) ^ i) axes hnd Y,
      rollOdds_phase f ((2 : ℤ) ^ i) o Y axes hnd]
  have hmap : ((phaseCombos axes).map fun o =>
      rollOdds axes o (idwtnM idwt1 axes fun K =>
        sliceN axes (phaseOff f ((2 : ℤ) ^ i) o) (2 * (2 : ℤ) ^ i)
          (if K = allA axes.length then out
           else lookupD (swtnLevel lo hi i axes Y) K))
        (toSliced axes f ((2 : ℤ) ^ i) t)) =
      List.replicate (phaseCombos axes).length
        (sliceN axes f ((2 : ℤ) ^ i) Y (toSliced axes f ((2 : ℤ) ^ i) t)) := by
    refine List.eq_replicate.mpr ⟨by simp, ?_⟩
    intro b hb
    obtain ⟨o, ho, rfl⟩ := List.mem_map.mp hb
    rw [hcontrib o]
  rw [hmap, List.sum_replicate, nsmul_eq_mul, mul_div_cancel_left₀]
  · rw [sliceN_apply hnd]
    congr 1
    funext a
    by_cases hmem : a ∈ axes
    · simp only [toSliced, hmem, if_true]
      have hdvd := inRegion_dvd ht a hmem
      have hcancel := Int.mul_ediv_cancel' hdvd
      omega
    · simp [toSliced, hmem]
  · have := phaseCombos_ne_nil axes
    have hlen : 0 < (phaseCombos axes).length := List.length_pos.mpr this
    exact_mod_cast hlen.ne'

/-- The fold of region updates over a duplicate-free list of in-range offset
combinations: points covered by some listed region receive the level input's
values, all other points keep the incoming buffer's values. -/
theorem foldl_regionUpdate {d : ℕ} (idwt1 : Fin d → Sig d → Sig d → Sig d)
    (lo hi : List ℚ)
    (hrec : ∀ (ax : Fin d) (z : Sig d),
      idwt1 ax (sliceAx ax 0 2 (convF lo 1 ax z))
        (sliceAx ax 0 2 (convF hi 1 ax z)) = z)
    {axes : List (Fin d)} (hnd : axes.Nodup) (i : ℕ) (Y : Sig d) :
    ∀ (l : List (Fin d → ℤ)), l.Nodup →
      (∀ f ∈ l, (∀ a ∈ axes, 0 ≤ f a ∧ f a < (2 : ℤ) ^ i) ∧
        ∀ a ∉ axes, f a = 0) →
      ∀ (out : Sig d),
        (∀ u (f : Fin d → ℤ), f ∈ l → inRegion axes f ((2 : ℤ) ^ i) u = true →
          out u = Astep lo hi i axes Y u) →
        (∀ u, (∃ f ∈ l, inRegion axes f ((2 : ℤ) ^ i) u = true) →
          (l.foldl (fun o f => regionUpdate idwt1 axes axes.length
            (swtnLevel lo hi i axes Y) ((2 : ℤ) ^ i) f o) out) u = Y u) ∧
        (∀ u, (∀ f ∈ l, inRegion axes f ((2 : ℤ) ^ i) u = false) →
          (l.foldl (fun o f => regionUpdate idwt1 axes axes.length
            (swtnLevel lo hi i axes Y) ((2 : ℤ) ^ i) f o) out) u = out u) := by
  intro l
  induction l with
  | nil =>
    intro _ _ out _
    exact ⟨fun u hu => absurd hu (by simp), fun u _ => rfl⟩
  | cons f l' ih =>
    intro hndl hchar out hagree
    obtain ⟨hfl', hndl'⟩ := List.nodup_cons.mp hndl
    have hcharf := hchar f (List.mem_cons_self f l')
    have hchar' : ∀ g ∈ l', (∀ a ∈ axes, 0 ≤ g a ∧ g a < (2 : ℤ) ^ i) ∧
        ∀ a ∉ axes, g a = 0 := fun g hg => hchar g (List.mem_cons_of_mem f hg)
    have hspos : (0 : ℤ) < (2 : ℤ) ^ i := by positivity
    -- the head update
    set out₁ := regionUpdate idwt1 axes axes.length (swtnLevel lo hi i axes Y)
      ((2 : ℤ) ^ i) f out with hout₁
    have hout₁_region : ∀ u, inRegion axes f ((2 : ℤ) ^ i) u = true →
        out₁ u = Y u := fun u hu =>
      regionUpdate_exact idwt1 lo hi hrec hnd i Y f out
        (fun v hv => hagree v f (List.mem_cons_self f l') hv) u hu
    have hout₁_outside : ∀ u, inRegion axes f ((2 : ℤ) ^ i) u = false →
        out₁ u = out u := fun u hu =>
      regionUpdate_outside idwt1 axes axes.length _ _ f out hu
    have hagree' : ∀ u (g : Fin d → ℤ), g ∈ l' →
        inRegion axes g ((2 : ℤ) ^ i) u = true →
        out₁ u = Astep lo hi i axes Y u := by
      intro u g hg hu
      have hfu : inRegion axes f ((2 : ℤ) ^ i) u = false := by
        by_contra hcontra
        have htrue : inRegion axes f ((2 : ℤ) ^ i) u = true := by
          cases hval : inRegion axes f ((2 : ℤ) ^ i) u
          · exact absurd hval hcontra
          · rfl
        have : f = g := region_unique hspos hcharf (hchar' g hg) htrue hu
        exact hfl' (this ▸ hg)
      rw [hout₁_outside u hfu]
      exact hagree u g (List.mem_cons_of_mem f hg) hu
    obtain ⟨ihpos, ihneg⟩ := ih hndl' hchar' out₁ hagree'
    constructor
    · intro u hu
      simp only [List.foldl_cons]
      obtain ⟨g, hgmem, hgreg⟩ := hu
      rcases List.mem_cons.mp hgmem with rfl | hg'
      · by_cases hany : ∃ g' ∈ l', inRegion axes g' ((2 : ℤ) ^ i) u = true
        · exact ihpos u hany
        · push_neg at hany
          have hallfalse : ∀ g' ∈ l', inRegion axes g' ((2 : ℤ) ^ i) u = false := by
            intro g' hg'
            cases hval : inRegion axes g' ((2 : ℤ) ^ i) u
            · rfl
            · exact absurd hval (hany g' hg')
          rw [ihneg u hallfalse]
          exact hout₁_region u hgreg
      · exact ihpos u ⟨g, hg', hgreg⟩
    · intro u hu
      simp only [List.foldl_cons]
      have hfu := hu f (List.mem_cons_self f l')
      rw [ihneg u fun g hg => hu g (List.mem_cons_of_mem f hg)]
      exact hout₁_outside u hfu

/-- One level of `iswtn` with step `2^i` exactly undoes one level of `swtn`
computed at absolute level `i`: starting from the level's approximation, the
offset loop restores the level's input everywhere. -/
theorem levelStep_inverts {d : ℕ} (idwt1 : Fin d → Sig d → Sig d → Sig d)
    (lo hi : List ℚ)
    (hrec : ∀ (ax : Fin d) (z : Sig d),
      idwt1 ax (sliceAx ax 0 2 (convF lo 1 ax z))
        (sliceAx ax 0 2 (convF hi 1 ax z)) = z)
    {axes : List (Fin d)} (hnd : axes.Nodup) (i : ℕ) (Y : Sig d) :
    levelStep idwt1 axes axes.length (swtnLevel lo hi i axes Y) (2 ^ i)
      (Astep lo hi i axes Y) = Y := by
  have hc : ((2 ^ i : ℕ) : ℤ) = (2 : ℤ) ^ i := by push_cast; ring
  have hstep : 0 < 2 ^ i := Nat.pos_pow_of_pos i (by norm_num)
  funext t
  unfold levelStep
  rw [hc]
  have hchar : ∀ f ∈ offsetCombos axes (2 ^ i),
      (∀ a ∈ axes, 0 ≤ f a ∧ f a < (2 : ℤ) ^ i) ∧ ∀ a ∉ axes, f a = 0 := by
    intro f hf
    obtain ⟨h1, h2⟩ := offsetCombos_char (2 ^ i) axes f hf
    exact ⟨fun a ha => by have := h1 a ha; constructor <;> omega, h2⟩
  obtain ⟨hpos, -⟩ := foldl_regionUpdate idwt1 lo hi hrec hnd i Y
    (offsetCombos axes (2 ^ i)) (offsetCombos_nodup (2 ^ i) axes hnd) hchar
    (Astep lo hi i axes Y) (fun _ _ _ _ => rfl)
  refine hpos t ?_
  obtain ⟨f, hf, hfspec⟩ := offsetCombos_cover (2 ^ i) hstep t axes hnd
  refine ⟨f, hf, inRegion_of_dvd fun a ha => ?_⟩
  rw [(hfspec a).1 ha, hc]
  exact ⟨t a / (2 : ℤ) ^ i, by rw [Int.emod_def]; ring⟩

/-! ## Lemmas: assembling the round trip -/

theorem foldr_max_const (n : ℕ) :
    ∀ l : List ℕ, l ≠ [] → (∀ m ∈ l, m = n) → l.foldr max 0 = n := by
  intro l
  induction l with
  | nil => intro h; exact absurd rfl h
  | cons a t ih =>
    intro _ hall
    have ha : a = n := hall a (List.mem_cons_self a t)
    cases t with
    | nil => simpa using ha
    | cons b t' =>
      have hrec : (b :: t').foldr max 0 = n :=
        ih (by simp) fun m hm => hall m (List.mem_cons_of_mem a hm)
      show max a ((b :: t').foldr max 0) = n
      rw [hrec, ha, Nat.max_self]

theorem keyList_ne_nil (n : ℕ) : keyList n ≠ [] := by
  intro h
  have hlen := keyList_length n
  rw [h] at hlen
  have hpos : 0 < 2 ^ n := Nat.pos_pow_of_pos n (by norm_num)
  simp at hlen
  omega

theorem maxKeyLen_swtnLevel {d : ℕ} (lo hi : List ℚ) (i : ℕ)
    (axes : List (Fin d)) (x : Sig d) :
    maxKeyLen (swtnLevel lo hi i axes x) = axes.length := by
  unfold maxKeyLen
  rw [swtnLevel_eq, List.map_map]
  refine foldr_max_const _ _ ?_ ?_
  · simp only [ne_eq, List.map_eq_nil_iff]
    exact keyList_ne_nil axes.length
  · intro m hm
    obtain ⟨K, hK, rfl⟩ := List.mem_map.mp hm
    exact mem_keyList.mp hK

/-- Peeling the reversed level list: `iswtn`'s loop undoes `swtn`'s levels one
by one, deepest first. -/
theorem iswtnGo_swtn {d : ℕ} (idwt1 : Fin d → Sig d → Sig d → Sig d)
    (lo hi : List ℚ)
    (hrec : ∀ (ax : Fin d) (z : Sig d),
      idwt1 ax (sliceAx ax 0 2 (convF lo 1 ax z))
        (sliceAx ax 0 2 (convF hi 1 ax z)) = z)
    {axes : List (Fin d)} (hnd : axes.Nodup) :
    ∀ (m : ℕ) (x : Sig d),
      iswtnGo idwt1 axes axes.length ((swtnGo lo hi axes m 0 x).reverse)
        (dataFrom lo hi axes 0 m x) = x := by
  intro m
  induction m with
  | zero => intro x; rfl
  | succ m ih =>
    intro x
    rw [swtnGo_append]
    have hrev : (swtnGo lo hi axes m 0 x ++
        [swtnLevel lo hi (0 + m) axes (dataFrom lo hi axes 0 m x)]).reverse =
        swtnLevel lo hi (0 + m) axes (dataFrom lo hi axes 0 m x) ::
          (swtnGo lo hi axes m 0 x).reverse := by
      simp
    rw [hrev]
    simp only [iswtnGo, List.length_reverse, swtnGo_length, zero_add]
    rw [dataFrom_succ, zero_add,
      levelStep_inverts idwt1 lo hi hrec hnd m (dataFrom lo hi axes 0 m x)]
    exact ih x

/-- Claim C1 (round-trip exactness): reconstructing with `iswtn` the
coefficients produced by `swtn` with the same wavelet and axes returns the
input signal, for every signal (periodic, with shape divisible by `2^level`
along every transformed axis), every wavelet — represented by an arbitrary
filter pair together with an arbitrary one-axis inverse primitive satisfying
the exact-inverse collaborator contract of spec section 6 — and every valid
(duplicate-free, non-empty) axis subset.  Proved exactly over ℚ, which is
stronger than the claim's floating-point tolerance. -/
theorem iswtnN_swtnN {d : ℕ} (lo hi : List ℚ)
    (idwt1 : Fin d → Sig d → Sig d → Sig d) (axes : List (Fin d)) (level : ℕ)
    (shape : Fin d → ℕ) (x : Sig d)
    (hnd : axes.Nodup) (hne : axes ≠ []) (hlv : 1 ≤ level)
    (hper : IsPeriodic shape x) (hdiv : ∀ ax ∈ axes, 2 ^ level ∣ shape ax)
    (hrec : ∀ (ax : Fin d) (z : Sig d),
      idwt1 ax (sliceAx ax 0 2 (convF lo 1 ax z))
        (sliceAx ax 0 2 (convF hi 1 ax z)) = z) :
    iswtnN idwt1 axes (swtnN lo hi axes level 0 x) = x := by
  obtain ⟨m, rfl⟩ : ∃ m, level = m + 1 := ⟨level - 1, by omega⟩
  unfold iswtnN swtnN
  rw [swtnGo_append]
  have hrev : (swtnGo lo hi axes m 0 x ++
      [swtnLevel lo hi (0 + m) axes (dataFrom lo hi axes 0 m x)]).reverse =
      swtnLevel lo hi (0 + m) axes (dataFrom lo hi axes 0 m x) ::
        (swtnGo lo hi axes m 0 x).reverse := by
    simp
  rw [hrev]
  simp only [List.headD_cons]
  rw [maxKeyLen_swtnLevel, lookupD_swtnLevel_allA]
  have hAD : Astep lo hi (0 + m) axes (dataFrom lo hi axes 0 m x) =
      dataFrom lo hi axes 0 (m + 1) x := by
    rw [dataFrom_succ, zero_add]
  rw [hAD, ← hrev, ← swtnGo_append]
  exact iswtnGo_swtn idwt1 lo hi hrec hnd (m + 1) x

/-- The Haar-like filter bank realises the abstract exact-inverse contract:
`haarIdwt` inverts the decimated one-axis forward step of
`haarLo`/`haarHi` exactly, on every signal. -/
theorem haarIdwt_inverts {d : ℕ} (ax : Fin d) (z : Sig d) :
    haarIdwt ax (sliceAx ax 0 2 (convF haarLo 1 ax z))
      (sliceAx ax 0 2 (convF haarHi 1 ax z)) = z := by
  funext t
  unfold haarIdwt sliceAx convF haarLo haarHi
  simp only [List.length_cons, List.length_nil, Finset.sum_range_succ,
    Finset.sum_range_zero, List.getD, Function.update_idem, Function.update_same,
    zero_add]
  by_cases hpar : 2 ∣ t ax
  · rw [if_pos hpar]
    have h1 : 2 * (t ax / 2) + 1 * ((0 : ℕ) : ℤ) = t ax := by omega
    have h2 : 2 * (t ax / 2) + 1 * ((1 : ℕ) : ℤ) = t ax + 1 := by omega
    rw [h1, h2, Function.update_eq_self]
    simp only [List.get?, Option.getD_some]
    ring
  · rw [if_neg hpar]
    have h1 : 2 * ((t ax - 1) / 2) + 1 * ((0 : ℕ) : ℤ) = t ax - 1 := by omega
    have h2 : 2 * ((t ax - 1) / 2) + 1 * ((1 : ℕ) : ℤ) = t ax := by omega
    rw [h1, h2, Function.update_eq_self]
    simp only [List.get?, Option.getD_some]
    ring

/-- Witness for claim C1: the round trip at a concrete instance — one axis,
the Haar-like filter bank, depth 1, a constant signal of period 2. -/
theorem iswtnN_swtnN_witness :
    ([(0 : Fin 1)] : List (Fin 1)).Nodup ∧
    ([(0 : Fin 1)] : List (Fin 1)) ≠ [] ∧
    (1 : ℕ) ≤ 1 ∧
    IsPeriodic (fun _ : Fin 1 => 2) (fun _ => (1 : ℚ)) ∧
    (∀ ax ∈ ([(0 : Fin 1)] : List (Fin 1)), 2 ^ 1 ∣ (fun _ : Fin 1 => 2) ax) ∧
    iswtnN haarIdwt [(0 : Fin 1)]
      (swtnN haarLo haarHi [(0 : Fin 1)] 1 0 (fun _ => (1 : ℚ))) =
      (fun _ => (1 : ℚ)) := by
  refine ⟨by decide, by decide, by decide, fun t ax => rfl, by decide, ?_⟩
  exact iswtnN_swtnN haarLo haarHi haarIdwt [(0 : Fin 1)] 1 (fun _ => 2)
    (fun _ => (1 : ℚ)) (by decide) (by decide) (by decide) (fun t ax => rfl)
    (by decide) (fun ax z => haarIdwt_inverts ax z)

/-! ## Lemmas: shape (periodicity) preservation and level membership -/

theorem shift_convF_same {d : ℕ} (ax : Fin d) (N : ℤ) (fil : List ℚ) (s : ℤ)
    (x : Sig d) :
    mapAx ax (fun v => v + N) (convF fil s ax x) =
      convF fil s ax (mapAx ax (fun v => v + N) x) := by
  funext u
  simp only [mapAx, convF, Function.update_idem, Function.update_same]
  refine Finset.sum_congr rfl fun k _ => ?_
  congr 2
  ring

theorem convF_periodic {d : ℕ} {shape : Fin d → ℕ} {x : Sig d}
    (hx : IsPeriodic shape x) (fil : List ℚ) (s : ℤ) (ax : Fin d) :
    IsPeriodic shape (convF fil s ax x) := by
  have hshift : ∀ ax' : Fin d, mapAx ax' (fun v => v + shape ax') x = x :=
    fun ax' => funext fun t => hx t ax'
  intro t ax'
  have hmap : mapAx ax' (fun v => v + shape ax') (convF fil s ax x) =
      convF fil s ax x := by
    by_cases h : ax' = ax
    · subst h
      rw [shift_convF_same, hshift]
    · rw [mapAx_convF h, hshift]
  exact congrFun hmap t

theorem applyKey_periodic {d : ℕ} {shape : Fin d → ℕ} (lo hi : List ℚ)
    (s : ℤ) :
    ∀ (K : List Bool) (axes : List (Fin d)) (x : Sig d),
      IsPeriodic shape x → IsPeriodic shape (applyKey lo hi s K axes x) := by
  intro K
  induction K with
  | nil => intro axes x hx; exact hx
  | cons b K ih =>
    intro axes x hx
    cases axes with
    | nil => exact hx
    | cons ax rest => exact ih rest _ (convF_periodic hx _ s ax)

theorem dataFrom_periodic {d : ℕ} {shape : Fin d → ℕ} (lo hi : List ℚ)
    (axes : List (Fin d)) :
    ∀ (m i : ℕ) (x : Sig d), IsPeriodic shape x →
      IsPeriodic shape (dataFrom lo hi axes i m x) := by
  intro m
  induction m with
  | zero => intro i x hx; exact hx
  | succ m ih =>
    intro i x hx
    exact ih (i + 1) _ (applyKey_periodic lo hi _ _ axes x hx)

theorem mem_swtnGo {d : ℕ} (lo hi : List ℚ) (axes : List (Fin d)) :
    ∀ (lv i : ℕ) (x : Sig d) (dict : List (List Bool × Sig d)),
      dict ∈ swtnGo lo hi axes lv i x →
      ∃ m, dict = swtnLevel lo hi (i + m) axes (dataFrom lo hi axes i m x) := by
  intro lv
  induction lv with
  | zero => intro i x dict h; cases h
  | succ lv ih =>
    intro i x dict h
    rw [swtnGo_succ] at h
    rcases List.mem_cons.mp h with rfl | h'
    · exact ⟨0, by simp [dataFrom]⟩
    · obtain ⟨m, hm⟩ := ih (i + 1) (Astep lo hi i axes x) dict h'
      refine ⟨m + 1, ?_⟩
      rw [hm]
      have harith : i + 1 + m = i + (m + 1) := by ring
      rw [harith]
      rfl

/-- Claim C7 (sub-band completeness and shape preservation): every level
coefficient set returned by `swtn` over an axis set of size `k` has exactly
`2^k` entries, whose keys are exactly the strings in `{a,d}^k`, and every
coefficient array has the same shape as the input signal (in this embedding:
is periodic with the same periods). -/
theorem swtn_level_subbands {d : ℕ} (lo hi : List ℚ) (axes : List (Fin d))
    (level start : ℕ) (shape : Fin d → ℕ) (x : Sig d)
    (hx : IsPeriodic shape x) (dict : List (List Bool × Sig d))
    (hd : dict ∈ swtnN lo hi axes level start x) :
    dict.length = 2 ^ axes.length ∧
    dict.map Prod.fst = keyList axes.length ∧
    (∀ K : List Bool, K ∈ dict.map Prod.fst ↔ K.length = axes.length) ∧
    ∀ p ∈ dict, IsPeriodic shape p.2 := by
  obtain ⟨m, rfl⟩ := mem_swtnGo lo hi axes level start x dict
    (List.mem_reverse.mp hd)
  have hkeys : (swtnLevel lo hi (start + m) axes
      (dataFrom lo hi axes start m x)).map Prod.fst = keyList axes.length := by
    rw [swtnLevel_eq, List.map_map]
    rw [List.map_congr_left fun K _ => rfl]
    exact List.map_id _
  refine ⟨?_, hkeys, ?_, ?_⟩
  · rw [swtnLevel_eq, List.length_map, keyList_length]
  · intro K
    rw [hkeys]
    exact mem_keyList
  · intro p hp
    rw [swtnLevel_eq] at hp
    obtain ⟨K, hK, rfl⟩ := List.mem_map.mp hp
    exact applyKey_periodic lo hi _ K axes _
      (dataFrom_periodic lo hi axes m start x hx)

/-- Witness for claim C7: the single level of a depth-1 Haar decomposition of
a constant periodic 1D signal. -/
theorem swtn_level_subbands_witness :
    IsPeriodic (fun _ : Fin 1 => 2) (fun _ => (1 : ℚ)) ∧
    swtnLevel haarLo haarHi 0 [(0 : Fin 1)] (fun _ => (1 : ℚ)) ∈
      swtnN haarLo haarHi [(0 : Fin 1)] 1 0 (fun _ => (1 : ℚ)) ∧
    ((swtnLevel haarLo haarHi 0 [(0 : Fin 1)] (fun _ => (1 : ℚ))).length =
        2 ^ ([(0 : Fin 1)] : List (Fin 1)).length ∧
      (swtnLevel haarLo haarHi 0 [(0 : Fin 1)] (fun _ => (1 : ℚ))).map Prod.fst =
        keyList ([(0 : Fin 1)] : List (Fin 1)).length ∧
      (∀ K : List Bool,
        K ∈ (swtnLevel haarLo haarHi 0 [(0 : Fin 1)]
          (fun _ => (1 : ℚ))).map Prod.fst ↔
          K.length = ([(0 : Fin 1)] : List (Fin 1)).length) ∧
      ∀ p ∈ swtnLevel haarLo haarHi 0 [(0 : Fin 1)] (fun _ => (1 : ℚ)),
        IsPeriodic (fun _ : Fin 1 => 2) p.2) := by
  have hmem : swtnLevel haarLo haarHi 0 [(0 : Fin 1)] (fun _ => (1 : ℚ)) ∈
      swtnN haarLo haarHi [(0 : Fin 1)] 1 0 (fun _ => (1 : ℚ)) := by
    show _ ∈ (swtnGo haarLo haarHi [(0 : Fin 1)] 1 0 (fun _ => (1 : ℚ))).reverse
    rw [swtnGo_succ]
    simp
  exact ⟨fun t ax => rfl, hmem,
    swtn_level_subbands haarLo haarHi [(0 : Fin 1)] 1 0 (fun _ => 2)
      (fun _ => (1 : ℚ)) (fun t ax => rfl) _ hmem⟩

theorem swtnGo_getD {d : ℕ} (lo hi : List ℚ) (axes : List (Fin d)) :
    ∀ (lv i : ℕ) (x : Sig d) (m : ℕ), m < lv →
      (swtnGo lo hi axes lv i x).getD m [] =
        swtnLevel lo hi (i + m) axes (dataFrom lo hi axes i m x) := by
  intro lv
  induction lv with
  | zero => intro i x m hm; omega
  | succ lv ih =>
    intro i x m hm
    rcases m with - | m
    · rw [swtnGo_succ]
      simp [dataFrom]
    · have hm' : m < lv := by omega
      rw [swtnGo_succ, List.getD_cons_succ,
        ih (i + 1) (Astep lo hi i axes x) m hm']
      have harith : i + 1 + m = i + (m + 1) := by ring
      rw [harith]
      rfl

theorem getD_reverse {α : Type _} (l : List α) (dft : α) {j : ℕ}
    (hj : j < l.length) :
    l.reverse.getD j dft = l.getD (l.length - 1 - j) dft := by
  have hj' : j < l.reverse.length := by simpa using hj
  rw [List.getD_eq_getElem _ _ hj', List.getD_eq_getElem _ _ (by omega),
    List.getElem_reverse]

/-- Claim C8 (level ordering): a successful `swtn` decomposition of depth
`level` starting at `start_level` returns exactly `level` level sets; element
`j` is the set computed at absolute level `start + (level - 1 - j)`, so
element 0 is the deepest (coarsest) level and the last element is the level
computed at `start_level` — the ascending loop output reversed. -/
theorem swtn_level_count_order {d : ℕ} (lo hi : List ℚ) (axes : List (Fin d))
    (level start : ℕ) (x : Sig d) (j : ℕ) (hj : j < level) :
    (swtnN lo hi axes level start x).length = level ∧
    (swtnN lo hi axes level start x).getD j [] =
      swtnLevel lo hi (start + (level - 1 - j)) axes
        (dataFrom lo hi axes start (level - 1 - j) x) := by
  have hlen : (swtnN lo hi axes level start x).length = level := by
    rw [swtnN, List.length_reverse, swtnGo_length]
  refine ⟨hlen, ?_⟩
  rw [swtnN, getD_reverse _ _ (by rw [swtnGo_length]; exact hj), swtnGo_length]
  have hm : level - 1 - j < level := by omega
  exact swtnGo_getD lo hi axes level start x (level - 1 - j) hm

/-- Witness for claim C8: depth 2 from start level 0, inspecting element 0 —
the deepest level, computed at absolute level 1. -/
theorem swtn_level_count_order_witness :
    (0 : ℕ) < 2 ∧
    (swtnN haarLo haarHi [(0 : Fin 1)] 2 0 (fun _ => (1 : ℚ))).length = 2 ∧
    (swtnN haarLo haarHi [(0 : Fin 1)] 2 0 (fun _ => (1 : ℚ))).getD 0 [] =
      swtnLevel haarLo haarHi (0 + (2 - 1 - 0)) [(0 : Fin 1)]
        (dataFrom haarLo haarHi [(0 : Fin 1)] 0 (2 - 1 - 0)
          (fun _ => (1 : ℚ))) := by
  refine ⟨by decide, ?_, ?_⟩
  · exact (swtn_level_count_order haarLo haarHi [(0 : Fin 1)] 2 0
      (fun _ => (1 : ℚ)) 0 (by decide)).1
  · exact (swtn_level_count_order haarLo haarHi [(0 : Fin 1)] 2 0
      (fun _ => (1 : ℚ)) 0 (by decide)).2

/-! ## Lemmas: read-dependence of the 1D inverse `iswt` (claim C10) -/

theorem iswtGo_details (idwt : Sig1 → Sig1 → Sig1) :
    ∀ (c c' : List (Sig1 × Sig1)), c.map Prod.snd = c'.map Prod.snd →
      ∀ out : Sig1, iswtGo idwt c out = iswtGo idwt c' out := by
  intro c
  induction c with
  | nil =>
    intro c' h out
    cases c' with
    | nil => rfl
    | cons q t' => simp at h
  | cons p t ih =>
    intro c' h out
    cases c' with
    | nil => simp at h
    | cons q t' =>
      simp only [List.map_cons, List.cons.injEq] at h
      obtain ⟨hpq, ht⟩ := h
      have hlen : t'.length = t.length := by
        have := congrArg List.length ht
        simpa using this.symm
      simp only [iswtGo]
      rw [hpq, hlen]
      exact ih t' ht _

/-- Claim C10 (read-dependence of `iswt`): the 1D inverse reads only the
coarsest level's approximation array `coeffs[0][0]` and the detail array of
every level; two coefficient lists of the same length that agree on those
(but differ arbitrarily in the other approximation arrays) produce the same
output. -/
theorem iswt_reads_only_head_approx_and_details (idwt : Sig1 → Sig1 → Sig1)
    (c c' : List (Sig1 × Sig1)) (hlen : c.length = c'.length)
    (hhead : (c.headD (fun _ => 0, fun _ => 0)).1 =
      (c'.headD (fun _ => 0, fun _ => 0)).1)
    (hdet : c.map Prod.snd = c'.map Prod.snd) :
    iswtM idwt c = iswtM idwt c' := by
  unfold iswtM
  rw [hhead]
  exact iswtGo_details idwt c c' hdet _

/-- Witness for claim C10: two 2-level coefficient lists differing only in the
finest level's approximation array reconstruct identically. -/
theorem iswt_reads_only_witness :
    ([((fun _ => (1 : ℚ)), (fun _ => (0 : ℚ))),
      ((fun _ => (5 : ℚ)), (fun _ => (0 : ℚ)))] : List (Sig1 × Sig1)).length =
      ([((fun _ => (1 : ℚ)), (fun _ => (0 : ℚ))),
        ((fun _ => (7 : ℚ)), (fun _ => (0 : ℚ)))] : List (Sig1 × Sig1)).length ∧
    (([((fun _ => (1 : ℚ)), (fun _ => (0 : ℚ))),
       ((fun _ => (5 : ℚ)), (fun _ => (0 : ℚ)))] : List (Sig1 × Sig1)).headD
        (fun _ => 0, fun _ => 0)).1 =
      (([((fun _ => (1 : ℚ)), (fun _ => (0 : ℚ))),
         ((fun _ => (7 : ℚ)), (fun _ => (0 : ℚ)))] : List (Sig1 × Sig1)).headD
          (fun _ => 0, fun _ => 0)).1 ∧
    ([((fun _ => (1 : ℚ)), (fun _ => (0 : ℚ))),
      ((fun _ => (5 : ℚ)), (fun _ => (0 : ℚ)))] : List (Sig1 × Sig1)).map
        Prod.snd =
      ([((fun _ => (1 : ℚ)), (fun _ => (0 : ℚ))),
        ((fun _ => (7 : ℚ)), (fun _ => (0 : ℚ)))] : List (Sig1 × Sig1)).map
          Prod.snd ∧
    iswtM (fun A _ => A)
      [((fun _ => (1 : ℚ)), (fun _ => (0 : ℚ))),
       ((fun _ => (5 : ℚ)), (fun _ => (0 : ℚ)))] =
    iswtM (fun A _ => A)
      [((fun _ => (1 : ℚ)), (fun _ => (0 : ℚ))),
       ((fun _ => (7 : ℚ)), (fun _ => (0 : ℚ)))] := by
  refine ⟨rfl, rfl, rfl, ?_⟩
  exact iswt_reads_only_head_approx_and_details (fun A _ => A) _ _ rfl rfl rfl

/-! ## The complex-path axis drop of `swt` (claim C2) -/

/-- Counterexample computation for claim C2: for a complex 2D input varying
along axis 0 only, `swt`'s complex path with `axis=0` differs from the
claimed combination computed with `axis=0` — because the recursive calls on
the real and imaginary parts drop the axis argument and use the default last
axis.  The mismatch is exhibited in the detail array of the only level at the
origin: 0 along axis 1 versus 1/2 along axis 0. -/
theorem swt_complex_path_drops_axis :
    swtComplexPath haarLo haarHi 1 0 0 cxRe cxIm ≠
      swtComplexSpec haarLo haarHi 1 0 0 cxRe cxIm := by
  intro h
  have hL : swtComplexPath haarLo haarHi 1 0 0 cxRe cxIm =
      some [((convF haarLo 1 (1 : Fin 2) cxRe, convF haarHi 1 (1 : Fin 2) cxRe),
             (convF haarLo 1 (1 : Fin 2) cxIm, convF haarHi 1 (1 : Fin 2) cxIm))] :=
    rfl
  have hR : swtComplexSpec haarLo haarHi 1 0 0 cxRe cxIm =
      some [((convF haarLo 1 (0 : Fin 2) cxRe, convF haarHi 1 (0 : Fin 2) cxRe),
             (convF haarLo 1 (0 : Fin 2) cxIm, convF haarHi 1 (0 : Fin 2) cxIm))] :=
    rfl
  rw [hL, hR] at h
  have h2 := congrArg (fun ob =>
    (((ob.getD []).headD
      ((fun _ => 0, fun _ => 0), (fun _ => 0, fun _ => 0))).1.2)
      (fun _ => 0)) h
  simp only [Option.getD_some, List.headD_cons] at h2
  have hval1 : convF haarHi 1 (1 : Fin 2) cxRe (fun _ => 0) = 0 := by
    have h01 : (0 : Fin 2) ≠ (1 : Fin 2) := by decide
    simp [convF, haarHi, cxRe, Finset.sum_range_succ, Function.update_noteq h01]
    norm_num
  have hval0 : convF haarHi 1 (0 : Fin 2) cxRe (fun _ => 0) = 1 / 2 := by
    simp [convF, haarHi, cxRe, Finset.sum_range_succ, Function.update_same]
  rw [hval1, hval0] at h2
  norm_num at h2

/-! ## Lemmas: validation order, pop/restore and error taxonomy
(claims C3, C4, C5, C6, C9) -/

theorem normAxes_range (nd : ℕ) :
    normAxes nd ((List.range nd).map Int.ofNat) =
      (List.range nd).map Int.ofNat := by
  unfold normAxes
  rw [List.map_map]
  refine List.map_congr_left fun a _ => ?_
  simp only [Function.comp_apply, normAxis]
  split_ifs with h
  · exact absurd h (not_lt.mpr (Int.ofNat_nonneg a))
  · rfl

theorem range_int_nodup (nd : ℕ) : ((List.range nd).map Int.ofNat).Nodup :=
  (List.nodup_range nd).map fun a b h => by
    simpa using congrArg Int.toNat h

/-- The level loop of `iswtn` can only succeed or fail with a `KeyError`,
an `IndexError` (empty details or the out-of-range-axis slice assignment at
line 501) or the shape-mismatch `RuntimeError`; the axis validation errors
are raised before it runs. -/
theorem iswtnLevelsGo_result (k nd : ℕ) (axes : List ℤ) :
    ∀ (cs : List ShapeDict) (w : ℕ),
      (iswtnLevelsGo k nd axes cs w).1 = .ok () ∨
      (iswtnLevelsGo k nd axes cs w).1 = .error .keyMissing ∨
      (iswtnLevelsGo k nd axes cs w).1 = .error .indexErr ∨
      (iswtnLevelsGo k nd axes cs w).1 = .error .axisRange ∨
      (iswtnLevelsGo k nd axes cs w).1 = .error .shapeMismatch := by
  intro cs
  induction cs with
  | nil => intro w; left; rfl
  | cons dict rest ih =>
    intro w
    cases hl : dict.lookup (allA k) with
    | none =>
      right; left
      simp only [iswtnLevelsGo, hl]
    | some a =>
      simp only [iswtnLevelsGo, hl]
      by_cases hempty :
          ((dict.eraseP fun p => p.1 == allA k).map fun p => p.2).isEmpty = true
      · right; right; left
        simp only [hempty, if_true]
      · simp only [Bool.not_eq_true] at hempty
        simp only [hempty, Bool.false_eq_true, if_false]
        by_cases hdedup :
            (((dict.eraseP fun p => p.1 == allA k).map fun p => p.2).dedup.length
              == 1) = true
        · simp only [hdedup, if_true]
          by_cases hrange : axesInRange nd axes = true
          · simp only [hrange, if_true]
            exact ih (w + 1)
          · simp only [Bool.not_eq_true] at hrange
            right; right; right; left
            simp only [hrange, Bool.false_eq_true, if_false]
        · simp only [Bool.not_eq_true] at hdedup
          right; right; right; right
          simp only [hdedup, Bool.false_eq_true, if_false]

/-- The axis-uniqueness and transformed-axis-count validation errors of
`iswtn` are detected before any reconstruction work: when one of them is
raised, no level has been processed and the caller's coefficient
dictionaries are unmodified. -/
theorem iswtn_validation_before_work (coeffs : List ShapeDict)
    (axesO : Option (List ℤ))
    (h : (iswtnModel coeffs axesO).result = .error .axesNotUnique ∨
      (iswtnModel coeffs axesO).result = .error .axisCount) :
    (iswtnModel coeffs axesO).levelsWorked = 0 ∧
    (iswtnModel coeffs axesO).finalCoeffs = coeffs := by
  cases hl : (coeffs.headD []).lookup
      (allA (((coeffs.headD []).map fun p => p.1.length).foldr max 0)) with
  | none =>
    simp only [iswtnModel, hl] at h
    rcases h with h | h <;> simp at h
  | some sh =>
    by_cases hnd : ¬ (normAxes sh.length
        (axesO.getD ((List.range sh.length).map Int.ofNat))).Nodup
    · simp only [iswtnModel, hl, if_pos hnd]
      constructor <;> trivial
    · by_cases hcnt : ((coeffs.headD []).map fun p => p.1.length).foldr max 0 ≠
          (normAxes sh.length
            (axesO.getD ((List.range sh.length).map Int.ofNat))).length
      · simp only [iswtnModel, hl, if_neg hnd, if_pos hcnt]
        constructor <;> trivial
      · exfalso
        simp only [iswtnModel, hl, if_neg hnd, if_neg hcnt] at h
        rcases iswtnLevelsGo_result
            (((coeffs.headD []).map fun p => p.1.length).foldr max 0) sh.length
            (normAxes sh.length
              (axesO.getD ((List.range sh.length).map Int.ofNat))) coeffs 0
          with hr | hr | hr | hr | hr <;>
          rcases h with h | h <;> rw [hr] at h <;> simp at h

/-- Counterexample for claim C3 as stated: with a consistent first level and a
shape-mismatched second level, `iswtn` raises the shape-mismatch error only
after fully reconstructing level 0 (one level of transform work), and the
second level's dictionary is left without its all-approximation key — so this
validation error is neither detected before transform work nor free of state
modification. -/
theorem iswtn_shape_error_after_work :
    (iswtnModel [goodDict2, badDict2] none).result = .error .shapeMismatch ∧
    (iswtnModel [goodDict2, badDict2] none).levelsWorked = 1 ∧
    ((iswtnModel [goodDict2, badDict2] none).finalCoeffs.getD 1 []).lookup
      (allA 2) = none :=
  ⟨rfl, rfl, rfl⟩

/-- Claim C4 (the code slip): when the shape-mismatch error is raised, the
popped all-approximation entry is not restored — after the call the failing
level's mapping no longer contains the `'a'*k` key, observably mutating the
caller's input.  The code's own comments (lines 489, 532) state the intent to
restore. -/
theorem iswtn_pop_not_restored :
    (iswtnModel [badDict2] none).result = .error .shapeMismatch ∧
    badDict2.lookup (allA 2) = some [4, 4] ∧
    ((iswtnModel [badDict2] none).finalCoeffs.headD []).lookup (allA 2) =
      none :=
  ⟨rfl, rfl, rfl⟩

/-- Counterexample for claim C5 as stated: a level whose approximation array
(shape `[2]`) disagrees with its detail array (shape `[4]`) passes the shape
test of `iswtn` (lines 489-494), because the test compares only the detail
sub-bands — yet two sub-band arrays of the level differ in shape. -/
theorem iswtn_approx_shape_unchecked :
    detailShapesOK 1 mixDict1 = true ∧
    (mixDict1.map fun p => p.2).dedup.length ≠ 1 := by
  decide

/-- Claim C5 (amended): when processing a level, the inverse engine checks
that the detail sub-band arrays of that level all have the same shape and
fails with the shape-mismatch error otherwise; the all-approximation sub-band
is excluded from the check. -/
theorem iswtn_detail_shape_mismatch (dict : ShapeDict) (sh : List ℕ)
    (hlook : dict.lookup (allA ((dict.map fun p => p.1.length).foldr max 0)) =
      some sh)
    (hcnt : (dict.map fun p => p.1.length).foldr max 0 = sh.length)
    (hne : ((dict.eraseP fun p =>
      p.1 == allA ((dict.map fun p => p.1.length).foldr max 0)).map
        fun p => p.2) ≠ [])
    (hbad : (((dict.eraseP fun p =>
      p.1 == allA ((dict.map fun p => p.1.length).foldr max 0)).map
        fun p => p.2)).dedup.length ≠ 1) :
    (iswtnModel [dict] none).result = .error .shapeMismatch := by
  have hnodup : (normAxes sh.length
      ((Option.getD none ((List.range sh.length).map Int.ofNat)))).Nodup := by
    simp only [Option.getD]
    rw [normAxes_range]
    exact range_int_nodup sh.length
  have hlen : ((dict.map fun p => p.1.length).foldr max 0) =
      (normAxes sh.length
        ((Option.getD none ((List.range sh.length).map Int.ofNat)))).length := by
    simp only [Option.getD]
    rw [normAxes_range, List.length_map, List.length_range]
    exact hcnt
  simp only [iswtnModel, List.headD_cons, hlook, if_neg (not_not.mpr hnodup),
    if_neg (not_not.mpr hlen)]
  simp only [iswtnLevelsGo, hlook]
  have hempty : (((dict.eraseP fun p =>
      p.1 == allA ((dict.map fun p => p.1.length).foldr max 0)).map
        fun p => p.2)).isEmpty = false := by
    rw [Bool.eq_false_iff]
    intro hc
    exact hne (List.isEmpty_iff.mp hc)
  have hdedup : ((((dict.eraseP fun p =>
      p.1 == allA ((dict.map fun p => p.1.length).foldr max 0)).map
        fun p => p.2)).dedup.length == 1) = false := by
    exact beq_eq_false_iff_ne.mpr hbad
  simp only [hempty, Bool.false_eq_true, if_false, hdedup]

/-- Witness for claim C5 (amended): a 2-axis level whose `dd` detail has a
mismatched shape triggers the shape-mismatch error. -/
theorem iswtn_detail_shape_mismatch_witness :
    badDict2.lookup (allA ((badDict2.map fun p => p.1.length).foldr max 0)) =
      some [4, 4] ∧
    (badDict2.map fun p => p.1.length).foldr max 0 = ([4, 4] : List ℕ).length ∧
    (iswtnModel [badDict2] none).result = .error .shapeMismatch := by
  refine ⟨rfl, rfl, ?_⟩
  exact iswtn_detail_shape_mismatch badDict2 [4, 4] rfl rfl (by decide) (by decide)

theorem swtnGo_nil_axes {d : ℕ} (lo hi : List ℚ) :
    ∀ (lv i : ℕ) (x : Sig d),
      swtnGo lo hi [] lv i x = List.replicate lv [([], x)] := by
  intro lv
  induction lv with
  | zero => intro i x; rfl
  | succ lv ih =>
    intro i x
    simp only [swtnGo]
    rw [ih (i + 1)]
    rfl

theorem swtnMFull_ok_axes {d : ℕ} (lo hi : List ℚ) (level start : ℕ)
    (x : Sig d) (isObj : Bool) (axesO : Option (List ℤ)) (axesZ : List ℤ)
    (hv : swtnValidate isObj d axesO = .ok axesZ) :
    swtnMFull lo hi level start x isObj axesO =
      match swtnGoChecked lo hi axesZ level start x 0 with
      | (.error e, st) => (.error e, st)
      | (.ok asc, st) => (.ok asc.reverse, st) := by
  unfold swtnMFull
  rw [hv]

theorem swtnGoChecked_nil_axes {d : ℕ} (lo hi : List ℚ) :
    ∀ (lv i : ℕ) (x : Sig d) (st : ℕ),
      swtnGoChecked lo hi [] lv i x st =
        (.ok (List.replicate lv [([], x)]), st) := by
  intro lv
  induction lv with
  | zero => intro i x st; rfl
  | succ lv ih =>
    intro i x st
    simp only [swtnGoChecked, expandAxesChecked]
    rw [ih (i + 1)]
    rfl

/-- Counterexample for claim C6 as stated: `swtn` called with an empty axis
set does not fail — it returns a result (one single-entry level set keyed by
the empty string), because the uniqueness test `len(axes) != len(set(axes))`
is vacuous for an empty list and nothing else rejects it. -/
theorem swtn_empty_axes_no_error :
    swtnM haarLo haarHi 1 0 (fun _ : Idx 1 => (1 : ℚ)) false (some []) =
      .ok [[(([] : List Bool), fun _ : Idx 1 => (1 : ℚ))]] := rfl

/-- Claim C6 (amended): input of fewer than 1 dimension fails with a
validation error; an empty axis set, however, is accepted, and `swtn` returns
`level` copies of the single-entry coefficient set `{'': data}`. -/
theorem swtn_ndim_error_empty_axes_ok {d : ℕ} (lo hi : List ℚ)
    (level start : ℕ) (x0 : Sig 0) (x : Sig d) (hd : 1 ≤ d) :
    swtnM lo hi level start x0 false none = .error .ndimLt1 ∧
    swtnM lo hi level start x false (some []) =
      .ok (List.replicate level [([], x)]) := by
  constructor
  · rfl
  · have h1 : swtnValidate false d (some []) = .ok [] := by
      simp only [swtnValidate, Option.getD_some]
      rw [if_neg (by omega : ¬ d < 1)]
      rfl
    unfold swtnM
    rw [swtnMFull_ok_axes lo hi level start x false (some []) [] h1,
        swtnGoChecked_nil_axes lo hi level start x 0]
    show Except.ok (List.replicate level [(([] : List Bool), x)]).reverse = _
    rw [List.reverse_replicate]

/-- Witness for claim C6 (amended): a 0-dimensional input fails, and a depth-2
call with empty axes returns two degenerate level sets. -/
theorem swtn_ndim_error_empty_axes_ok_witness :
    (1 : ℕ) ≤ 1 ∧
    swtnM haarLo haarHi 2 0 (fun _ : Idx 0 => (0 : ℚ)) false none =
      .error .ndimLt1 ∧
    swtnM haarLo haarHi 2 0 (fun _ : Idx 1 => (1 : ℚ)) false (some []) =
      .ok (List.replicate 2 [(([] : List Bool), fun _ : Idx 1 => (1 : ℚ))]) := by
  refine ⟨by decide, ?_, ?_⟩
  · exact (swtn_ndim_error_empty_axes_ok haarLo haarHi 2 0 (fun _ => 0)
      (fun _ : Idx 1 => (1 : ℚ)) (by decide)).1
  · exact (swtn_ndim_error_empty_axes_ok haarLo haarHi 2 0 (fun _ => 0)
      (fun _ : Idx 1 => (1 : ℚ)) (by decide)).2

/-- Claim C9: a duplicated axis — detected after negative-index
normalisation — makes both the N-axis forward engine (`swtn`) and the N-axis
inverse engine (`iswtn`) fail with the axis-uniqueness validation error
rather than returning a result, for any input array and wavelet; nothing is
silently deduplicated. -/
theorem duplicate_axes_rejected (nd : ℕ) (axs : List ℤ) (hnd1 : ¬ nd < 1)
    (hdup : ¬ (normAxes nd axs).Nodup)
    (coeffs : List ShapeDict) (sh : List ℕ)
    (hlook : (coeffs.headD []).lookup
      (allA (((coeffs.headD []).map fun p => p.1.length).foldr max 0)) =
        some sh)
    (hshape : sh.length = nd) :
    swtnValidate false nd (some axs) = .error .axesNotUnique ∧
    (iswtnModel coeffs (some axs)).result = .error .axesNotUnique := by
  constructor
  · simp only [swtnValidate, Option.getD_some]
    rw [if_neg hnd1, if_neg hdup]
    rfl
  · simp only [iswtnModel, hlook, Option.getD_some]
    rw [hshape, if_pos hdup]

/-- Witness for claim C9: `axes=(0, -2)` on 2-dimensional data normalises to
`(0, 0)` and is rejected by both engines. -/
theorem duplicate_axes_rejected_witness :
    ¬ (2 : ℕ) < 1 ∧ ¬ (normAxes 2 [0, -2]).Nodup ∧
    ([4, 4] : List ℕ).length = 2 ∧
    (swtnValidate false 2 (some [0, -2]) = .error .axesNotUnique ∧
      (iswtnModel [goodDict2] (some [0, -2])).result =
        .error .axesNotUnique) := by
  refine ⟨by decide, by decide, by decide, ?_⟩
  exact duplicate_axes_rejected 2 [0, -2] (by decide) (by decide)
    [goodDict2] [4, 4] rfl rfl

theorem expandAxesChecked_err {d : ℕ} (lo hi : List ℚ) (i : ℕ) :
    ∀ (axs : List ℤ) (cs : List (List Bool × Sig d)) (st : ℕ) (e : SwtErr),
      (expandAxesChecked lo hi i axs cs st).1 = .error e → e = .axisRange := by
  intro axs
  induction axs with
  | nil =>
    intro cs st e h
    exact absurd h (by simp [expandAxesChecked])
  | cons a rest ih =>
    intro cs st e h
    by_cases hr : 0 ≤ a ∧ a.toNat < d
    · simp only [expandAxesChecked] at h
      rw [dif_pos hr] at h
      exact ih _ _ e h
    · simp only [expandAxesChecked] at h
      rw [dif_neg hr] at h
      exact (Except.error.inj h).symm

theorem swtnGoChecked_err {d : ℕ} (lo hi : List ℚ) (axes : List ℤ) :
    ∀ (lv i : ℕ) (x : Sig d) (st : ℕ) (e : SwtErr),
      (swtnGoChecked lo hi axes lv i x st).1 = .error e → e = .axisRange := by
  intro lv
  induction lv with
  | zero =>
    intro i x st e h
    exact absurd h (by simp [swtnGoChecked])
  | succ lv ih =>
    intro i x st e h
    rcases h1 : expandAxesChecked lo hi i axes [([], x)] st with ⟨r1, st1⟩
    cases r1 with
    | error e1 =>
      have he1 : e1 = SwtErr.axisRange :=
        expandAxesChecked_err lo hi i axes [([], x)] st e1 (by rw [h1])
      simp only [swtnGoChecked, h1, Except.error.injEq] at h
      rw [← h]
      exact he1
    | ok coeffs =>
      rcases h2 : swtnGoChecked lo hi axes lv (i + 1)
          (lookupD coeffs (allA axes.length)) st1 with ⟨r2, st2⟩
      cases r2 with
      | error e2 =>
        have he2 : e2 = SwtErr.axisRange :=
          ih (i + 1) (lookupD coeffs (allA axes.length)) st1 e2 (by rw [h2])
        simp only [swtnGoChecked, h1, h2, Except.error.injEq] at h
        rw [← h]
        exact he2
      | ok asc =>
        simp only [swtnGoChecked, h1, h2] at h
        exact Except.noConfusion h

/-- Claim C3 (amended): in `swtn`, the object-dtype, `ndim >= 1` and
axis-uniqueness validation errors are detected before any transform work
begins (zero per-axis transform steps performed); in `iswtn`, the
axis-uniqueness and transformed-axis-count errors are detected before any
reconstruction work, with the caller's coefficient mappings unmodified.  The
remaining errors of the taxonomy are not eager: an out-of-range axis is
raised by `iswtn` only at the first level's slice construction (line 501),
after that level's all-approximation entry has been popped (line 489) and
left unrestored, and by `swtn` only when the level loop reaches the
offending axis (lines 407-411), after transform steps along the earlier
axes; the within-level shape-mismatch check likewise runs per level (see the
separate counterexample). -/
theorem swtn_iswtn_validation_timing :
    (∀ (coeffs : List ShapeDict) (axesO : Option (List ℤ)),
      ((iswtnModel coeffs axesO).result = .error .axesNotUnique ∨
        (iswtnModel coeffs axesO).result = .error .axisCount) →
      (iswtnModel coeffs axesO).levelsWorked = 0 ∧
      (iswtnModel coeffs axesO).finalCoeffs = coeffs) ∧
    (∀ (d : ℕ) (lo hi : List ℚ) (level start : ℕ) (x : Sig d) (isObj : Bool)
        (axesO : Option (List ℤ)),
      ((swtnMFull lo hi level start x isObj axesO).1 = .error .objectDtype ∨
        (swtnMFull lo hi level start x isObj axesO).1 = .error .ndimLt1 ∨
        (swtnMFull lo hi level start x isObj axesO).1 =
          .error .axesNotUnique) →
      (swtnMFull lo hi level start x isObj axesO).2 = 0) ∧
    ((iswtnModel [goodDict2] (some [0, 5])).result = .error .axisRange ∧
      ((iswtnModel [goodDict2] (some [0, 5])).finalCoeffs.headD []).lookup
        (allA 2) = none) ∧
    ((swtnMFull haarLo haarHi 1 0 cxRe false (some [0, 5])).1 =
        .error .axisRange ∧
      (swtnMFull haarLo haarHi 1 0 cxRe false (some [0, 5])).2 = 1) := by
  refine ⟨iswtn_validation_before_work, ?_, ⟨rfl, rfl⟩, ⟨rfl, rfl⟩⟩
  intro d lo hi level start x isObj axesO h
  cases hv : swtnValidate isObj d axesO with
  | error e =>
    simp only [swtnMFull, hv]
  | ok axesZ =>
    exfalso
    rcases hg : swtnGoChecked lo hi axesZ level start x 0 with ⟨r, st⟩
    cases r with
    | error e =>
      have he : e = SwtErr.axisRange :=
        swtnGoChecked_err lo hi axesZ level start x 0 e (by rw [hg])
      have h1 : (swtnMFull lo hi level start x isObj axesO).1 =
          .error e := by
        rw [swtnMFull_ok_axes lo hi level start x isObj axesO axesZ hv, hg]
      subst he
      rcases h with h | h | h <;> rw [h1] at h <;> simp at h
    | ok asc =>
      have h1 : (swtnMFull lo hi level start x isObj axesO).1 =
          .ok asc.reverse := by
        rw [swtnMFull_ok_axes lo hi level start x isObj axesO axesZ hv, hg]
      rcases h with h | h | h <;> rw [h1] at h <;> exact Except.noConfusion h

/-- Witness for claim C3 (amended): a duplicate-axis call makes `iswtn`
return the uniqueness error with zero levels worked and untouched
dictionaries, and makes `swtn` return it with zero transform steps. -/
theorem swtn_iswtn_validation_timing_witness :
    ((iswtnModel [goodDict2] (some [0, 0])).result = .error .axesNotUnique ∨
      (iswtnModel [goodDict2] (some [0, 0])).result = .error .axisCount) ∧
    (iswtnModel [goodDict2] (some [0, 0])).levelsWorked = 0 ∧
    (iswtnModel [goodDict2] (some [0, 0])).finalCoeffs = [goodDict2] ∧
    ((swtnMFull haarLo haarHi 1 0 cxRe false (some [0, 0])).1 =
        .error .objectDtype ∨
      (swtnMFull haarLo haarHi 1 0 cxRe false (some [0, 0])).1 =
        .error .ndimLt1 ∨
      (swtnMFull haarLo haarHi 1 0 cxRe false (some [0, 0])).1 =
        .error .axesNotUnique) ∧
    (swtnMFull haarLo haarHi 1 0 cxRe false (some [0, 0])).2 = 0 := by
  have h1 := swtn_iswtn_validation_timing.1 [goodDict2] (some [0, 0])
    (Or.inl rfl)
  have h2 := swtn_iswtn_validation_timing.2.1 2 haarLo haarHi 1 0 cxRe false
    (some [0, 0]) (Or.inr (Or.inr rfl))
  exact ⟨Or.inl rfl, h1.1, h1.2, Or.inr (Or.inr rfl), h2⟩

end SwtVerify
